import Mathlib

/-!
# tasktracker: the recurrence-rule engine

A shallow embedding of `internal/domain/task/nextdate.go` and the date helpers of
`internal/domain/task/model.go`, together with the parts of the Go standard library
they call (`time`, `strings`, `strconv`).

Modelling conventions

* A `time.Time` is an instant at midnight UTC, represented by its number of days since
  1970-01-01, an `Int`.  Every value the engine builds (`ParseDate`, `time.Date`
  with zero clock fields, `AddDate`) is of that form, and the reference date `now` is taken
  to be a calendar date as well.
* Go `int` is modelled by `Int`; the only place where the 64-bit width is observable is
  `strconv.Atoi`, which reports a range error outside `[-2^63, 2^63 - 1]`.
* Go strings are modelled by `String`/`List Char`; `len` is the UTF-8 byte length.
* A Go result `(T, error)` is an `Except Err T`.
* Loops whose termination depends on data carry a fuel argument which is chosen from the
  inputs; running out of fuel is reported as `Err.fuelExhausted` and stands for a Go loop
  that does not return.
-/

namespace TaskTracker

/-! ## The `time` package -/

/-- The `isLeap` helper of package `time`. -/
def isLeap (year : Int) : Bool :=
  year % 4 = 0 && (year % 100 != 0 || year % 400 = 0)

/-- The table `daysBefore` of package `time`: `daysBefore i` is the number of days in a
non-leap year before month `i + 1` starts. -/
def daysBefore (i : Int) : Int :=
  if i ≤ 0 then 0 else if i = 1 then 31 else if i = 2 then 59 else if i = 3 then 90
  else if i = 4 then 120 else if i = 5 then 151 else if i = 6 then 181
  else if i = 7 then 212 else if i = 8 then 243 else if i = 9 then 273
  else if i = 10 then 304 else if i = 11 then 334 else 365

/-- The `daysIn` helper of package `time`: the length of a month. -/
def daysIn (month year : Int) : Int :=
  if month = 2 ∧ isLeap year = true then 29
  else daysBefore month - daysBefore (month - 1)

/-- Days from 1970-01-01 to January 1 of `year` (proleptic Gregorian calendar). -/
def daysSinceEpoch (year : Int) : Int :=
  365 * (year - 1) + (year - 1) / 4 - (year - 1) / 100 + (year - 1) / 400 - 719162

/-- The function `time.Date(year, month, day, 0, 0, 0, 0, time.UTC)`.  The month is
normalised into `1..12` with the overflow carried into the year; the day is not
normalised but counted from the first of the month, so that October 32 is November 1. -/
def Date (year month day : Int) : Int :=
  let m := month - 1
  let year := year + m / 12
  let m := m % 12
  let month := m + 1
  let d := daysSinceEpoch year
  let d := d + daysBefore (month - 1)
  let d := if isLeap year = true ∧ month ≥ 3 then d + 1 else d
  d + (day - 1)

/-- The year and the zero-based day of the year of an instant
(`absDate(abs, false)` of package `time`). -/
def absYear (t : Int) : Int × Int :=
  let d := t + 719162
  let n := d / 146097
  let y := 400 * n
  let d := d - 146097 * n
  let n := d / 36524
  let n := n - n / 4
  let y := y + 100 * n
  let d := d - 36524 * n
  let n := d / 1461
  let y := y + 4 * n
  let d := d - 1461 * n
  let n := d / 365
  let n := n - n / 4
  let y := y + n
  let d := d - 365 * n
  (y + 1, d)

/-- Month and day of the month from the zero-based day of the year
(the second half of `absDate` of package `time`). -/
def monthDay (leap : Bool) (yday : Int) : Int × Int :=
  if leap = true ∧ yday = 59 then (2, 29)
  else
    let day := if leap = true ∧ yday > 59 then yday - 1 else yday
    let month := day / 31
    let e := daysBefore (month + 1)
    if day ≥ e then (month + 2, day - e + 1)
    else (month + 1, day - daysBefore month + 1)

/-- The method `Time.Date()`: year, month and day of an instant. -/
def absDate (t : Int) : Int × Int × Int :=
  let yd := absYear t
  (yd.1, monthDay (isLeap yd.1) yd.2)

/-- The method `Time.Year()`. -/
def Year (t : Int) : Int := (absDate t).1

/-- The method `Time.Month()`, January = 1. -/
def Month (t : Int) : Int := (absDate t).2.1

/-- The method `Time.Day()`. -/
def Day (t : Int) : Int := (absDate t).2.2

/-- The method `Time.Weekday()`, Sunday = 0 .. Saturday = 6 (1970-01-01 was a Thursday). -/
def Weekday (t : Int) : Int := (t + 4) % 7

/-- The method `Time.AddDate(years, months, days)`. -/
def AddDate (t : Int) (years months days : Int) : Int :=
  Date (Year t + years) (Month t + months) (Day t + days)

/-- The method `Time.Before`. -/
def Before (t u : Int) : Bool := decide (t < u)

/-- The method `Time.After`. -/
def After (t u : Int) : Bool := decide (u < t)

/-- The method `Time.Equal`. -/
def Equal (t u : Int) : Bool := decide (t = u)

/-! ## The `strings` and `strconv` packages -/

/-- The predicate `unicode.IsSpace`, by code point. -/
def isSpace (c : Char) : Bool :=
  let n := c.toNat
  (9 ≤ n && n ≤ 13) || n = 32 || n = 133 || n = 160 || n = 5760 ||
  (8192 ≤ n && n ≤ 8202) || n = 8232 || n = 8233 || n = 8239 || n = 8287 || n = 12288

/-- Worker of `Fields`: `cur` is the current field, reversed. -/
def fieldsAux : List Char → List Char → List (List Char)
  | [], cur => if cur = [] then [] else [cur.reverse]
  | c :: cs, cur =>
    if isSpace c = true then
      (if cur = [] then fieldsAux cs [] else cur.reverse :: fieldsAux cs [])
    else fieldsAux cs (c :: cur)

/-- The function `strings.Fields`: the maximal runs of non-space characters. -/
def Fields (s : List Char) : List (List Char) := fieldsAux s []

/-- Worker of `Split`: `cur` is the current piece, reversed. -/
def splitAux (sep : Char) : List Char → List Char → List (List Char)
  | [], cur => [cur.reverse]
  | c :: cs, cur =>
    if c = sep then cur.reverse :: splitAux sep cs [] else splitAux sep cs (c :: cur)

/-- The function `strings.Split(s, ",")`. -/
def Split (s : List Char) : List (List Char) := splitAux ',' s []

/-- Value of a decimal digit. -/
def digitVal (c : Char) : Option Nat :=
  if 48 ≤ c.toNat ∧ c.toNat ≤ 57 then some (c.toNat - 48) else none

/-- Value of a string of decimal digits, continuing from `acc`. -/
def digitsVal : List Char → Nat → Option Nat
  | [], acc => some acc
  | c :: cs, acc =>
    match digitVal c with
    | some v => digitsVal cs (10 * acc + v)
    | none => none

/-- The function `strconv.Atoi` on a 64-bit platform: an optional sign followed by at
least one decimal digit, with value in the range of `int`; `none` is an error. -/
def Atoi (s : List Char) : Option Int :=
  match s with
  | [] => none
  | c :: cs =>
    let neg := decide (c = '-')
    let ds := if c = '-' ∨ c = '+' then cs else s
    if ds = [] then none
    else
      match digitsVal ds 0 with
      | none => none
      | some n =>
        let v : Int := if neg = true then -(n : Int) else (n : Int)
        if -9223372036854775808 ≤ v ∧ v ≤ 9223372036854775807 then some v else none

/-! ## Errors -/

/-- The error sites of the engine. -/
inductive Err where
  /-- Message "некорректная длина даты, ожидается 8 символов" (`ValidateDate`) -/
  | dateLength
  /-- Message "некорректный формат даты" (`ValidateDate`, `ParseDate`) -/
  | dateFormat
  /-- Message "пустое правило повторения" (`NextDate`) -/
  | emptyRepeat
  /-- Message "некорректный формат правила" (`ParseRepeatRule`) -/
  | ruleFormat
  /-- Message "неподдерживаемый тип правила" (`ParseRepeatRule`, `calculateNextDate`) -/
  | unsupportedType
  /-- Message "правило y не требует дополнительных параметров" -/
  | yearParams
  /-- Message "правило d требует указания количества дней" -/
  | dayCount
  /-- Message "некорректное количество дней" -/
  | dayNumber
  /-- Message "количество дней должно быть в диапазоне от 1 до 400" -/
  | dayRange
  /-- Message "правило w требует указания дней недели" -/
  | weekCount
  /-- Message "некорректный день недели" -/
  | weekNumber
  /-- Message "день недели должен быть от 1 до 7" -/
  | weekRange
  /-- Message "правило m требует указания дней и опционально месяцев" -/
  | monthCount
  /-- Message "некорректный день месяца" -/
  | monthDayNumber
  /-- Message "день месяца должен быть от 1 до 31 или -1, -2" -/
  | monthDayHigh
  /-- Message "отрицательный день месяца может быть только -1 или -2" -/
  | monthDayLow
  /-- Message "некорректный месяц" -/
  | monthNumber
  /-- Message "месяц должен быть от 1 до 12" -/
  | monthRange
  /-- Message "не удалось найти подходящую дату" (`calculateMonthRule`) -/
  | noMatchingDate
  /-- Not a Go error: the loop of the Go code does not terminate. -/
  | fuelExhausted
  deriving DecidableEq, Repr

/-! ## Parsing and formatting dates (`time.Parse`, `Time.Format`, `model.go`) -/

/-- Two decimal digits (`getnum` of package `time` with `fixed = true`). -/
def getnum2 (s : List Char) : Option (Int × List Char) :=
  match s with
  | a :: b :: rest =>
    match digitVal a, digitVal b with
    | some x, some y => some ((10 * x + y : Nat), rest)
    | _, _ => none
  | _ => none

/-- The function `time.Parse` for the layout `DateFormat = "20060102"`: a four-digit year,
a two-digit month in `1..12`, a two-digit day valid for that month, and nothing else;
`none` is a parse error. -/
def timeParse (value : List Char) : Option Int :=
  match value with
  | a :: b :: c :: d :: rest =>
    match digitsVal [a, b, c, d] 0 with
    | none => none
    | some year =>
      match getnum2 rest with
      | none => none
      | some (month, rest) =>
        if month ≤ 0 ∨ 12 < month then none
        else
          match getnum2 rest with
          | none => none
          | some (day, rest) =>
            if rest ≠ [] then none
            else if day < 1 ∨ day > daysIn month year then none
            else some (Date year month day)
  | _ => none

/-- The helper `appendInt` of package `time`: decimal digits, zero-padded to `width`. -/
def appendInt (x : Int) (width : Nat) : List Char :=
  let ds := Nat.toDigits 10 x.natAbs
  let padded := List.replicate (width - ds.length) '0' ++ ds
  if x < 0 then '-' :: padded else padded

/-- The method `Time.Format` for the layout `DateFormat = "20060102"`. -/
def timeFormat (t : Int) : List Char :=
  appendInt (Year t) 4 ++ appendInt (Month t) 2 ++ appendInt (Day t) 2

/-- The function `ValidateDate` of `model.go`. -/
def ValidateDate (date : String) : Except Err Unit :=
  if date.utf8ByteSize ≠ 8 then .error .dateLength
  else
    match timeParse date.data with
    | none => .error .dateFormat
    | some _ => .ok ()

/-- The function `ParseDate` of `model.go`. -/
def ParseDate (date : String) : Except Err Int :=
  match timeParse date.data with
  | none => .error .dateFormat
  | some t => .ok t

/-- The function `FormatDate` of `model.go`. -/
def FormatDate (t : Int) : String := String.mk (timeFormat t)

/-! ## Repeat rules and their parser (`nextdate.go`) -/

/-- The constant `maxDaysInterval`. -/
def maxDaysInterval : Int := 400

/-- The constant `daysInWeek`. -/
def daysInWeek : Int := 7

/-- The constant `monthsInYear`. -/
def monthsInYear : Int := 12

/-- The struct `RepeatRule` (the field `Type` is spelled `Type_`). -/
structure RepeatRule where
  Type_ : String
  Days : Int
  DaysWeek : List Int
  MonthDays : List Int
  Months : List Int
  deriving DecidableEq, Repr

/-- The method `parseDayRule`. -/
def parseDayRule (r : RepeatRule) (parts : List (List Char)) : Except Err RepeatRule :=
  match parts with
  | [_, p1] =>
    match Atoi p1 with
    | none => .error .dayNumber
    | some days =>
      if days ≤ 0 ∨ days > maxDaysInterval then .error .dayRange
      else .ok { r with Days := days }
  | _ => .error .dayCount

/-- The loop of `parseWeekRule` over the pieces of the list token; `acc` is `r.DaysWeek`. -/
def parseWeekDays : List (List Char) → List Int → Except Err (List Int)
  | [], acc => .ok acc
  | dayStr :: rest, acc =>
    match Atoi dayStr with
    | none => .error .weekNumber
    | some day =>
      if day < 1 ∨ day > daysInWeek then .error .weekRange
      else parseWeekDays rest (acc ++ [day])

/-- The method `parseWeekRule`. -/
def parseWeekRule (r : RepeatRule) (parts : List (List Char)) : Except Err RepeatRule :=
  match parts with
  | [_, p1] =>
    match parseWeekDays (Split p1) [] with
    | .error e => .error e
    | .ok ds => .ok { r with DaysWeek := ds }
  | _ => .error .weekCount

/-- The first loop of `parseMonthRule`, over the day values; `acc` is `r.MonthDays`. -/
def parseMonthDays : List (List Char) → List Int → Except Err (List Int)
  | [], acc => .ok acc
  | dayStr :: rest, acc =>
    match Atoi dayStr with
    | none => .error .monthDayNumber
    | some day =>
      if day > 0 ∧ day > 31 then .error .monthDayHigh
      else if day < 0 ∧ day < -2 then .error .monthDayLow
      else parseMonthDays rest (acc ++ [day])

/-- The second loop of `parseMonthRule`, over the month values; `acc` is `r.Months`. -/
def parseMonths : List (List Char) → List Int → Except Err (List Int)
  | [], acc => .ok acc
  | monthStr :: rest, acc =>
    match Atoi monthStr with
    | none => .error .monthNumber
    | some month =>
      if month < 1 ∨ month > monthsInYear then .error .monthRange
      else parseMonths rest (acc ++ [month])

/-- The method `parseMonthRule`. -/
def parseMonthRule (r : RepeatRule) (parts : List (List Char)) : Except Err RepeatRule :=
  match parts with
  | [_, p1] =>
    match parseMonthDays (Split p1) [] with
    | .error e => .error e
    | .ok ds => .ok { r with MonthDays := ds }
  | [_, p1, p2] =>
    match parseMonthDays (Split p1) [] with
    | .error e => .error e
    | .ok ds =>
      match parseMonths (Split p2) [] with
      | .error e => .error e
      | .ok ms => .ok { r with MonthDays := ds, Months := ms }
  | _ => .error .monthCount

/-- The value `&RepeatRule{Type: parts[0]}`: every other field has its zero value. -/
def newRule (p0 : List Char) : RepeatRule :=
  { Type_ := String.mk p0, Days := 0, DaysWeek := [], MonthDays := [], Months := [] }

/-- The function `ParseRepeatRule`. -/
def ParseRepeatRule (rule : String) : Except Err RepeatRule :=
  let parts := Fields rule.data
  match parts with
  | [] => .error .ruleFormat
  | p0 :: rest =>
    let r : RepeatRule := newRule p0
    if r.Type_ = "d" then parseDayRule r parts
    else if r.Type_ = "y" then
      (if rest ≠ [] then .error .yearParams else .ok r)
    else if r.Type_ = "w" then parseWeekRule r parts
    else if r.Type_ = "m" then parseMonthRule r parts
    else .error .unsupportedType

/-! ## The occurrence calculator (`nextdate.go`) -/

/-- The loop `for next.Before(now) { next = next.AddDate(0, 0, days) }` of
`calculateDayRule`, run for at most `fuel` additions. -/
def dayLoop (days : Int) (now : Int) : Nat → Int → Option Int
  | 0, next => if Before next now = true then none else some next
  | fuel + 1, next =>
    if Before next now = true then dayLoop days now fuel (AddDate next 0 0 days)
    else some next

/-- The method `calculateDayRule`.  The fuel `now - base` is enough whenever `Days ≥ 1`. -/
def calculateDayRule (r : RepeatRule) (now base : Int) : Except Err Int :=
  let days := r.Days
  let next := base
  if Before next now = true then
    match dayLoop days now (now - base).toNat next with
    | some next => .ok next
    | none => .error .fuelExhausted
  else
    .ok (AddDate next 0 0 days)

/-- The body of the loop of `calculateYearRule`. -/
def yearStep (next : Int) : Int :=
  let month := Month next
  let day := Day next
  let next := AddDate next 1 0 0
  if month = 2 ∧ day = 29 ∧ Month next = 3 then Date (Year next) 3 1 else next

/-- The loop `for !next.After(now) { ... }` of `calculateYearRule`, run for at most
`fuel` iterations. -/
def yearLoop (now : Int) : Nat → Int → Option Int
  | 0, next => if After next now = true then some next else none
  | fuel + 1, next =>
    if After next now = true then some next else yearLoop now fuel (yearStep next)

/-- The method `calculateYearRule`.  Every iteration advances by at least 365 days, so
the fuel `now - base + 1` is always enough. -/
def calculateYearRule (_r : RepeatRule) (now base : Int) : Except Err Int :=
  let next := base
  if After next now = true ∨ Equal next now = true then
    .ok (AddDate next 1 0 0)
  else
    match yearLoop now ((now - base).toNat + 1) next with
    | some next => .ok next
    | none => .error .fuelExhausted

/-- The weekday of `next` as used by `calculateWeekRule`: Monday = 1 .. Sunday = 7. -/
def isoWeekday (next : Int) : Int :=
  let weekday := Weekday next
  if weekday = 0 then 7 else weekday

/-- The loop `for i := 0; i <= daysInWeek; i++` of `calculateWeekRule` with `n`
iterations left, followed by the final `return next, nil`. -/
def weekLoop (r : RepeatRule) (now : Int) : Nat → Int → Int
  | 0, next => next
  | n + 1, next =>
    let weekday := isoWeekday next
    if r.DaysWeek.any (fun day => decide (weekday = day) && After next now) = true then next
    else weekLoop r now n (AddDate next 0 0 1)

/-- The method `calculateWeekRule`. -/
def calculateWeekRule (r : RepeatRule) (now base : Int) : Except Err Int :=
  let next := if Before base now = true then now else base
  .ok (weekLoop r now (daysInWeek.toNat + 1) next)

/-- The inner loop of `calculateMonthRule` over `r.MonthDays`: the candidate dates of the
month of `next`. -/
def monthCandidates (r : RepeatRule) (now next : Int) (lastDay : Int) : List Int :=
  r.MonthDays.filterMap fun day =>
    let targetDay := if day < 0 then lastDay + day + 1 else day
    if targetDay < 1 ∨ targetDay > lastDay then none
    else
      let candidateDate := Date (Year next) (Month next) targetDay
      if After candidateDate now = true then some candidateDate else none

/-- The call `sort.Slice(candidates, ...)` with `Before` as the order: ascending. -/
def sortSlice (candidates : List Int) : List Int :=
  candidates.insertionSort (fun a b => a ≤ b)

/-- The loop `for i := 0; i < 24*31; i++` of `calculateMonthRule` with `n` iterations
left, followed by the final error.  The map `months` is represented by its key list
`r.Months`. -/
def monthLoop (r : RepeatRule) (now : Int) : Nat → Int → Except Err Int
  | 0, _ => .error .noMatchingDate
  | n + 1, next =>
    let currentMonth := Month next
    if r.Months.length > 0 ∧ ¬ currentMonth ∈ r.Months then
      monthLoop r now n (Date (Year next) (Month next + 1) 1)
    else
      let lastDay := Day (Date (Year next) (Month next + 1) 0)
      let candidates := monthCandidates r now next lastDay
      if candidates.length > 0 then .ok ((sortSlice candidates).headD next)
      else monthLoop r now n (AddDate next 0 0 1)

/-- The method `calculateMonthRule`. -/
def calculateMonthRule (r : RepeatRule) (now base : Int) : Except Err Int :=
  let next := if Before base now = true then now else base
  monthLoop r now (24 * 31) next

/-- The method `calculateNextDate`. -/
def calculateNextDate (r : RepeatRule) (now base : Int) : Except Err Int :=
  if r.Type_ = "d" then calculateDayRule r now base
  else if r.Type_ = "y" then calculateYearRule r now base
  else if r.Type_ = "w" then calculateWeekRule r now base
  else if r.Type_ = "m" then calculateMonthRule r now base
  else .error .unsupportedType

/-- The function `NextDate`. -/
def NextDate (now : Int) (date : String) (repeatRule : String) : Except Err String :=
  match ValidateDate date with
  | .error e => .error e
  | .ok _ =>
    if repeatRule = "" then .error .emptyRepeat
    else
      match ParseDate date with
      | .error e => .error e
      | .ok baseDate =>
        match ParseRepeatRule repeatRule with
        | .error e => .error e
        | .ok rule =>
          match calculateNextDate rule now baseDate with
          | .error e => .error e
          | .ok nextDate => .ok (FormatDate nextDate)

/-! ## Specification vocabulary -/

/-- Number of days of a year that precede the first of month `m` (`1..13`). -/
def monthOffset (leap : Bool) (m : Int) : Int :=
  daysBefore (m - 1) + (if leap = true ∧ m ≥ 3 then 1 else 0)

/-- The ISO weekday (1 = Monday .. 7 = Sunday) of the day with number `d`; day 0,
1970-01-01, was a Thursday. -/
def isoDayOfWeek (d : Int) : Int := (d + 3) % 7 + 1

/-- The index of the calendar month of an instant: months counted from January of year 0. -/
def monthIndex (t : Int) : Int := Year t * 12 + (Month t - 1)

/-- A configured day value resolved against the last day of a month: `-1` is the last
day, `-2` the one before; other values stand for themselves. -/
def resolveDay (lastDay v : Int) : Int := if v < 0 then lastDay + v + 1 else v

/-- The dates the monthly rule `r` selects, seen from `now` and the starting cursor:
strictly after `now`, in the month of the cursor or a later one, in an eligible month, and
on a configured day of the month. -/
def MonthlyMatch (r : RepeatRule) (now cursor d : Int) : Prop :=
  now < d ∧ monthIndex cursor ≤ monthIndex d ∧
    (r.Months = [] ∨ Month d ∈ r.Months) ∧
    ∃ v ∈ r.MonthDays, 1 ≤ resolveDay (daysIn (Month d) (Year d)) v ∧
      resolveDay (daysIn (Month d) (Year d)) v ≤ daysIn (Month d) (Year d) ∧
      Day d = resolveDay (daysIn (Month d) (Year d)) v

/-- First day of the month with index `k`. -/
def monthStart (k : Int) : Int := Date 0 (k + 1) 1

/-- The rule strings the parser has to reject, by the shape of their token list:
`d N` with `N` not a number or outside `1..400`; `y` with a further token; `w` alone;
`w` with a list value outside `1..7`; `m` with a day value above 31 or below -2;
`m` with a month value outside `1..12`. -/
def RejectedShape (s : String) : Prop :=
  (∃ tok, Fields s.data = [['d'], tok] ∧
      (Atoi tok = none ∨ ∃ N, Atoi tok = some N ∧ (N ≤ 0 ∨ N > 400))) ∨
  (∃ tok rest, Fields s.data = ['y'] :: tok :: rest) ∨
  Fields s.data = [['w']] ∨
  (∃ tok piece v, Fields s.data = [['w'], tok] ∧ piece ∈ Split tok ∧ Atoi piece = some v ∧
      (v < 1 ∨ v > 7)) ∨
  (∃ tok rest piece v, Fields s.data = ['m'] :: tok :: rest ∧ piece ∈ Split tok ∧
      Atoi piece = some v ∧ (v > 31 ∨ v < -2)) ∨
  (∃ tok tok2 piece v, Fields s.data = [['m'], tok, tok2] ∧ piece ∈ Split tok2 ∧
      Atoi piece = some v ∧ (v < 1 ∨ v > 12))

/-- The character of the decimal digit `n`. -/
def digitChar (n : Nat) : Char := Char.ofNat (48 + n)

/-- A valid 8-character `YYYYMMDD` calendar date: eight decimal digits whose month field
is in `1..12` and whose day field exists in that month of that year. -/
def IsCalendarDateString (s : String) : Prop :=
  ∃ a b c d e f g h : Nat,
    a < 10 ∧ b < 10 ∧ c < 10 ∧ d < 10 ∧ e < 10 ∧ f < 10 ∧ g < 10 ∧ h < 10 ∧
    s.data = [digitChar a, digitChar b, digitChar c, digitChar d, digitChar e, digitChar f,
      digitChar g, digitChar h] ∧
    1 ≤ 10 * e + f ∧ 10 * e + f ≤ 12 ∧ 1 ≤ 10 * g + h ∧
    ((10 * g + h : Nat) : Int) ≤
      daysIn ((10 * e + f : Nat) : Int) ((1000 * a + 100 * b + 10 * c + d : Nat) : Int)

/-! ## The task service (`service.go`) -/

/-- The struct `Task` of `model.go`. -/
structure Task where
  ID : Int
  Date : String
  Title : String
  Comment : String
  Repeat : String
  deriving DecidableEq, Repr

/-- The errors of `MarkTaskDone`: an error of the repository, passed on as it is, or
"ошибка вычисления следующей даты", which wraps the error of `NextDate`. -/
inductive ServiceErr where
  | repository (msg : String)
  | nextDate (e : Err)
  deriving DecidableEq, Repr

/-- The methods of the interface `Repository` that `MarkTaskDone` calls, over a store of
type `σ` that is passed explicitly. -/
structure Repository (σ : Type) where
  GetTaskByID : σ → Int → Except String Task
  DeleteTask : σ → Int → Except String σ
  UpdateTaskDate : σ → Int → String → Except String σ

/-- The method `Service.MarkTaskDone`: a task without a repeat rule is deleted, a repeating
task gets the date `NextDate` computes from its current date. -/
def MarkTaskDone {σ : Type} (repository : Repository σ) (store : σ) (id : Int) (now : Int) :
    Except ServiceErr σ :=
  match repository.GetTaskByID store id with
  | .error msg => .error (.repository msg)
  | .ok task =>
    if task.Repeat = "" then
      match repository.DeleteTask store id with
      | .error msg => .error (.repository msg)
      | .ok store => .ok store
    else
      match NextDate now task.Date task.Repeat with
      | .error e => .error (.nextDate e)
      | .ok nextDate =>
        match repository.UpdateTaskDate store id nextDate with
        | .error msg => .error (.repository msg)
        | .ok store => .ok store

/-- The repository of `task_repository.go`, with the table `scheduler` as a list of rows:
`GetTaskByID` selects the row with the id, `DeleteTask` and `UpdateTaskDate` change the
rows with the id and fail with "задача не найдена" when no row is affected.  Failures of
the database connection are not modelled. -/
def tableRepository : Repository (List Task) where
  GetTaskByID store id :=
    match store.find? (fun t => decide (t.ID = id)) with
    | some t => .ok t
    | none => .error "задача не найдена"
  DeleteTask store id :=
    if store.any (fun t => decide (t.ID = id)) = true
    then .ok (store.filter (fun t => !decide (t.ID = id)))
    else .error "задача не найдена"
  UpdateTaskDate store id newDate :=
    if store.any (fun t => decide (t.ID = id)) = true
    then .ok (store.map (fun t => if t.ID = id then { t with Date := newDate } else t))
    else .error "задача не найдена"

/-! ## The calendar: `time.Date` and `Time.Date()` are inverse to each other -/

/-- The leap-year test as a proposition. -/
theorem isLeap_iff (y : Int) :
    isLeap y = true ↔ (y % 4 = 0 ∧ (y % 100 ≠ 0 ∨ y % 400 = 0)) := by
  simp [isLeap]

/-- The entries of the table `daysBefore`. -/
theorem daysBefore_table :
    daysBefore 0 = 0 ∧ daysBefore 1 = 31 ∧ daysBefore 2 = 59 ∧ daysBefore 3 = 90 ∧
    daysBefore 4 = 120 ∧ daysBefore 5 = 151 ∧ daysBefore 6 = 181 ∧ daysBefore 7 = 212 ∧
    daysBefore 8 = 243 ∧ daysBefore 9 = 273 ∧ daysBefore 10 = 304 ∧ daysBefore 11 = 334 ∧
    daysBefore 12 = 365 := by
  decide

/-- The month estimate `day / 31` of `absDate`, corrected by at most one, is the month
whose span of a non-leap year contains `day`. -/
theorem monthDay_aux (day : Int) (h0 : 0 ≤ day) (h1 : day < 365) :
    ∃ m : Int, 1 ≤ m ∧ m ≤ 12 ∧ daysBefore (m - 1) ≤ day ∧ day < daysBefore m ∧
      (if day ≥ daysBefore (day / 31 + 1) then (day / 31 + 2, day - daysBefore (day / 31 + 1) + 1)
        else (day / 31 + 1, day - daysBefore (day / 31) + 1)) = (m, day - daysBefore (m - 1) + 1) := by
  obtain ⟨t0, t1, t2, t3, t4, t5, t6, t7, t8, t9, t10, t11, t12⟩ := daysBefore_table
  have hm : day / 31 = 0 ∨ day / 31 = 1 ∨ day / 31 = 2 ∨ day / 31 = 3 ∨ day / 31 = 4 ∨
      day / 31 = 5 ∨ day / 31 = 6 ∨ day / 31 = 7 ∨ day / 31 = 8 ∨ day / 31 = 9 ∨
      day / 31 = 10 ∨ day / 31 = 11 := by omega
  rcases hm with hm | hm | hm | hm | hm | hm | hm | hm | hm | hm | hm | hm <;>
    rw [hm] <;> norm_num only <;> simp only [t0, t1, t2, t3, t4, t5, t6, t7, t8, t9, t10, t11, t12] <;>
    split <;> refine ⟨_, ?_, ?_, ?_, ?_, rfl⟩ <;> norm_num only <;>
    (try simp only [t0, t1, t2, t3, t4, t5, t6, t7, t8, t9, t10, t11, t12]) <;> omega

/-- The first days of the months, as days of the year. -/
theorem monthOffset_table (leap : Bool) :
    monthOffset leap 1 = 0 ∧ monthOffset leap 2 = 31 ∧
    monthOffset leap 3 = 59 + (if leap = true then 1 else 0) ∧
    monthOffset leap 4 = 90 + (if leap = true then 1 else 0) ∧
    monthOffset leap 5 = 120 + (if leap = true then 1 else 0) ∧
    monthOffset leap 6 = 151 + (if leap = true then 1 else 0) ∧
    monthOffset leap 7 = 181 + (if leap = true then 1 else 0) ∧
    monthOffset leap 8 = 212 + (if leap = true then 1 else 0) ∧
    monthOffset leap 9 = 243 + (if leap = true then 1 else 0) ∧
    monthOffset leap 10 = 273 + (if leap = true then 1 else 0) ∧
    monthOffset leap 11 = 304 + (if leap = true then 1 else 0) ∧
    monthOffset leap 12 = 334 + (if leap = true then 1 else 0) ∧
    monthOffset leap 13 = 365 + (if leap = true then 1 else 0) := by
  cases leap <;> decide

/-- The month and day computed from a day of the year are valid and locate that day. -/
theorem monthDay_spec (leap : Bool) (yd : Int) (h0 : 0 ≤ yd)
    (h1 : yd < if leap = true then 366 else 365) :
    1 ≤ (monthDay leap yd).1 ∧ (monthDay leap yd).1 ≤ 12 ∧ 1 ≤ (monthDay leap yd).2 ∧
      monthOffset leap (monthDay leap yd).1 + ((monthDay leap yd).2 - 1) = yd ∧
      yd < monthOffset leap ((monthDay leap yd).1 + 1) := by
  obtain ⟨o1, o2, o3, o4, o5, o6, o7, o8, o9, o10, o11, o12, o13⟩ := monthOffset_table leap
  obtain ⟨t0, t1, t2, t3, t4, t5, t6, t7, t8, t9, t10, t11, t12⟩ := daysBefore_table
  unfold monthDay
  by_cases c : leap = true ∧ yd = 59
  · rw [if_pos c]
    obtain ⟨cl, cy⟩ := c
    subst cl
    simp only [if_true] at o3
    refine ⟨by norm_num, by norm_num, by norm_num, ?_, ?_⟩
    · show monthOffset true 2 + (29 - 1) = yd
      omega
    · show yd < monthOffset true (2 + 1)
      norm_num only
      omega
  · rw [if_neg c]
    generalize hday : (if leap = true ∧ yd > 59 then yd - 1 else yd) = day
    have hd : (leap = true ∧ yd > 59 ∧ day = yd - 1) ∨ (¬ (leap = true ∧ yd > 59) ∧ day = yd) := by
      by_cases c2 : leap = true ∧ yd > 59
      · rw [if_pos c2] at hday; exact Or.inl ⟨c2.1, c2.2, hday.symm⟩
      · rw [if_neg c2] at hday; exact Or.inr ⟨c2, hday.symm⟩
    have hb : 0 ≤ day ∧ day < 365 := by
      rcases hd with ⟨hl, h59, hd⟩ | ⟨hn, hd⟩
      · subst hl; simp only [if_true] at h1; omega
      · cases leap
        · simp only [Bool.false_eq_true, if_false] at h1; omega
        · simp only [if_true, true_and] at h1 hn c; omega
    obtain ⟨m, m1, m12, lo, hi, e⟩ := monthDay_aux day hb.1 hb.2
    simp only [ge_iff_le] at e ⊢
    rw [e]
    simp only
    have key : monthOffset leap m + (day - daysBefore (m - 1) + 1 - 1) = yd ∧
        yd < monthOffset leap (m + 1) := by
      rcases hd with ⟨hl, h59, hd⟩ | ⟨hn, hd⟩
      · subst hl
        simp only [if_true] at o3 o4 o5 o6 o7 o8 o9 o10 o11 o12 o13
        interval_cases m <;> norm_num only at lo hi ⊢ <;>
          simp only [o1, o2, o3, o4, o5, o6, o7, o8, o9, o10, o11, o12, o13,
            t0, t1, t2, t3, t4, t5, t6, t7, t8, t9, t10, t11, t12] at lo hi ⊢ <;> omega
      · cases leap
        · simp only [Bool.false_eq_true, if_false] at o3 o4 o5 o6 o7 o8 o9 o10 o11 o12 o13
          interval_cases m <;> norm_num only at lo hi ⊢ <;>
            simp only [o1, o2, o3, o4, o5, o6, o7, o8, o9, o10, o11, o12, o13,
              t0, t1, t2, t3, t4, t5, t6, t7, t8, t9, t10, t11, t12] at lo hi ⊢ <;> omega
        · simp only [if_true, true_and] at o3 o4 o5 o6 o7 o8 o9 o10 o11 o12 o13 hn c
          interval_cases m <;> norm_num only at lo hi ⊢ <;>
            simp only [o1, o2, o3, o4, o5, o6, o7, o8, o9, o10, o11, o12, o13,
              t0, t1, t2, t3, t4, t5, t6, t7, t8, t9, t10, t11, t12] at lo hi ⊢ <;> omega
    exact ⟨m1, m12, by omega, key.1, key.2⟩

/-- The cycle arithmetic of `absDate`: the 400, 100, 4 and 1 year cycles split a day number
into a year and a day of that year. -/
theorem absYear_arith (t n400 r1 q100 n100 r2 q4 r3 q1 n1 y : Int)
    (hn400 : n400 = (t + 719162) / 146097)
    (hr1 : r1 = t + 719162 - 146097 * n400)
    (hq100 : q100 = r1 / 36524)
    (hn100 : n100 = q100 - q100 / 4)
    (hr2 : r2 = r1 - 36524 * n100)
    (hq4 : q4 = r2 / 1461)
    (hr3 : r3 = r2 - 1461 * q4)
    (hq1 : q1 = r3 / 365)
    (hn1 : n1 = q1 - q1 / 4)
    (hy : y = 400 * n400 + 100 * n100 + 4 * q4 + n1 + 1) :
    daysSinceEpoch y + (r3 - 365 * n1) = t ∧ 0 ≤ r3 - 365 * n1 ∧
      r3 - 365 * n1 < (if isLeap y then 366 else 365) := by
  have b1 : 0 ≤ r1 ∧ r1 < 146097 := by omega
  have b2 : 0 ≤ q100 ∧ q100 ≤ 4 := by omega
  have b3 : 0 ≤ n100 ∧ n100 ≤ 3 := by omega
  have b4 : 0 ≤ r2 ∧ r2 ≤ 36524 := by omega
  have b5 : 0 ≤ q4 ∧ q4 ≤ 24 := by omega
  have b6 : 0 ≤ r3 ∧ r3 ≤ 1460 := by omega
  have b7 : 0 ≤ q1 ∧ q1 ≤ 4 := by omega
  have b8 : 0 ≤ n1 ∧ n1 ≤ 3 := by omega
  have e4 : (y - 1) / 4 = 100 * n400 + 25 * n100 + q4 := by omega
  have e100 : (y - 1) / 100 = 4 * n400 + n100 := by omega
  have e400 : (y - 1) / 400 = n400 := by omega
  simp only [daysSinceEpoch, e4, e100, e400]
  have m4 : y % 4 = n1 + 1 - 4 * (n1 / 3) := by omega
  have m100 : y % 100 = 0 ↔ (n1 = 3 ∧ q4 = 24) := by omega
  have m400 : y % 400 = 0 ↔ (n1 = 3 ∧ q4 = 24 ∧ n100 = 3) := by omega
  by_cases h : isLeap y = true
  · rw [if_pos h]; omega
  · rw [if_neg h]; rw [isLeap_iff] at h
    by_cases c1 : n1 = 3
    · by_cases c2 : q4 = 24
      · by_cases c3 : n100 = 3
        · exact absurd ⟨by omega, Or.inr (m400.2 ⟨c1, c2, c3⟩)⟩ h
        · omega
      · exact absurd ⟨by omega, Or.inl (fun hh => c2 (m100.1 hh).2)⟩ h
    · omega

/-- The year of an instant starts on or before it and the day of the year is within the
length of that year. -/
theorem absYear_spec (t : Int) :
    daysSinceEpoch (absYear t).1 + (absYear t).2 = t ∧ 0 ≤ (absYear t).2 ∧
      (absYear t).2 < (if isLeap (absYear t).1 then 366 else 365) :=
  absYear_arith t _ _ _ _ _ _ _ _ _ _ rfl rfl rfl rfl rfl rfl rfl rfl rfl rfl

/-- The value of `time.Date` for a month in `1..12`. -/
theorem Date_of_month (y m d : Int) (h1 : 1 ≤ m) (h12 : m ≤ 12) :
    Date y m d = daysSinceEpoch y + monthOffset (isLeap y) m + (d - 1) := by
  have e1 : (m - 1) / 12 = 0 := by omega
  have e2 : (m - 1) % 12 = m - 1 := by omega
  simp only [Date, monthOffset, e1, e2, add_zero, sub_add_cancel]
  by_cases c : isLeap y = true ∧ m ≥ 3
  · rw [if_pos c, if_pos c]; omega
  · rw [if_neg c, if_neg c]; omega

/-- The fields of `Time.Date()` are a valid calendar date that denotes the instant. -/
theorem absDate_spec (t : Int) :
    1 ≤ Month t ∧ Month t ≤ 12 ∧ 1 ≤ Day t ∧
      daysSinceEpoch (Year t) + monthOffset (isLeap (Year t)) (Month t) + (Day t - 1) = t ∧
      Day t - 1 + monthOffset (isLeap (Year t)) (Month t) <
        monthOffset (isLeap (Year t)) (Month t + 1) := by
  obtain ⟨a1, a2, a3⟩ := absYear_spec t
  obtain ⟨b1, b2, b3, b4, b5⟩ := monthDay_spec (isLeap (absYear t).1) (absYear t).2 a2 a3
  simp only [Year, Month, Day, absDate]
  refine ⟨b1, b2, b3, ?_, ?_⟩ <;> omega

/-- Rebuilding an instant from its year, month and day gives it back. -/
theorem Date_absDate (t : Int) : Date (Year t) (Month t) (Day t) = t := by
  obtain ⟨h1, h2, _, h4, _⟩ := absDate_spec t
  rw [Date_of_month _ _ _ h1 h2]
  exact h4

/-- The call `AddDate(0, 0, n)` moves an instant by `n` days. -/
theorem AddDate_days (t : Int) (n : Int) : AddDate t 0 0 n = t + n := by
  obtain ⟨h1, h2, _, h4, _⟩ := absDate_spec t
  simp only [AddDate, add_zero]
  rw [Date_of_month _ _ _ h1 h2]
  omega

/-- Years are at least 365 days long. -/
theorem daysSinceEpoch_mono {a b : Int} (h : a ≤ b) :
    daysSinceEpoch a + 365 * (b - a) ≤ daysSinceEpoch b := by
  unfold daysSinceEpoch
  omega

/-- January 1 of the next year comes after the last day of this year. -/
theorem daysSinceEpoch_succ (y : Int) :
    daysSinceEpoch (y + 1) = daysSinceEpoch y + monthOffset (isLeap y) 13 := by
  have h13 := (monthOffset_table (isLeap y)).2.2.2.2.2.2.2.2.2.2.2.2
  rw [h13]
  unfold daysSinceEpoch
  by_cases h : isLeap y = true
  · rw [if_pos h]; rw [isLeap_iff] at h; omega
  · rw [if_neg h]; rw [isLeap_iff] at h; omega

/-- The next month starts `daysIn` days after this one. -/
theorem monthOffset_succ (y m : Int) (h1 : 1 ≤ m) (h12 : m ≤ 12) :
    monthOffset (isLeap y) (m + 1) = monthOffset (isLeap y) m + daysIn m y := by
  obtain ⟨o1, o2, o3, o4, o5, o6, o7, o8, o9, o10, o11, o12, o13⟩ := monthOffset_table (isLeap y)
  obtain ⟨t0, t1, t2, t3, t4, t5, t6, t7, t8, t9, t10, t11, t12⟩ := daysBefore_table
  unfold daysIn
  interval_cases m <;> norm_num only <;>
    simp only [o1, o2, o3, o4, o5, o6, o7, o8, o9, o10, o11, o12, o13,
      t0, t1, t2, t3, t4, t5, t6, t7, t8, t9, t10, t11, t12] <;>
    cases isLeap y <;> simp

/-- Months are 28 to 31 days long. -/
theorem monthOffset_step (leap : Bool) (m : Int) (h1 : 1 ≤ m) (h12 : m ≤ 12) :
    monthOffset leap m + 28 ≤ monthOffset leap (m + 1) ∧
      monthOffset leap (m + 1) ≤ monthOffset leap m + 31 := by
  obtain ⟨o1, o2, o3, o4, o5, o6, o7, o8, o9, o10, o11, o12, o13⟩ := monthOffset_table leap
  have hl : (if leap = true then (1 : Int) else 0) = 0 ∨
      (if leap = true then (1 : Int) else 0) = 1 := by
    cases leap <;> simp
  interval_cases m <;> norm_num only <;>
    simp only [o1, o2, o3, o4, o5, o6, o7, o8, o9, o10, o11, o12, o13] <;> omega

/-- Month starts grow by at least 28 days a month. -/
theorem monthOffset_mono_aux (leap : Bool) (a : Int) (ha : 1 ≤ a) (k : Nat) (hb : a + k ≤ 13) :
    monthOffset leap a + 28 * k ≤ monthOffset leap (a + k) := by
  induction k with
  | zero => simp
  | succ n ih =>
    have h := ih (by push_cast at hb; omega)
    have hs := (monthOffset_step leap (a + n) (by omega) (by push_cast at hb; omega)).1
    push_cast
    rw [← add_assoc]
    omega

/-- Month starts are monotone within a year. -/
theorem monthOffset_mono (leap : Bool) (a b : Int) (ha : 1 ≤ a) (hab : a ≤ b) (hb : b ≤ 13) :
    monthOffset leap a ≤ monthOffset leap b := by
  have h := monthOffset_mono_aux leap a ha (b - a).toNat (by omega)
  have e : a + ((b - a).toNat : Int) = b := by omega
  rw [e] at h
  omega

/-- A valid day of a month lies within its month and its year. -/
theorem dayOfYear_bounds (y m d : Int) (h1 : 1 ≤ m) (h12 : m ≤ 12) (hd1 : 1 ≤ d)
    (hd : d ≤ daysIn m y) :
    0 ≤ monthOffset (isLeap y) m + (d - 1) ∧
      monthOffset (isLeap y) m + (d - 1) < monthOffset (isLeap y) (m + 1) ∧
      monthOffset (isLeap y) (m + 1) ≤ monthOffset (isLeap y) 13 := by
  have hs := monthOffset_succ y m h1 h12
  have hm := monthOffset_mono (isLeap y) 1 m (le_refl _) h1 (by omega)
  have hm2 := monthOffset_mono (isLeap y) (m + 1) 13 (by omega) (by omega) (le_refl _)
  have o1 := (monthOffset_table (isLeap y)).1
  omega

/-- A day number determines its year. -/
theorem year_unique (y y2 a b : Int) (ha : 0 ≤ a) (ha2 : a < monthOffset (isLeap y) 13)
    (hb : 0 ≤ b) (hb2 : b < monthOffset (isLeap y2) 13)
    (e : daysSinceEpoch y + a = daysSinceEpoch y2 + b) : y = y2 := by
  rcases lt_trichotomy y y2 with h | h | h
  · have := daysSinceEpoch_mono (show y + 1 ≤ y2 by omega)
    have := daysSinceEpoch_succ y
    omega
  · exact h
  · have := daysSinceEpoch_mono (show y2 + 1 ≤ y by omega)
    have := daysSinceEpoch_succ y2
    omega

/-- A day of the year determines its month. -/
theorem month_unique (leap : Bool) (m m2 a b : Int) (h1 : 1 ≤ m) (h12 : m ≤ 12)
    (k1 : 1 ≤ m2) (k12 : m2 ≤ 12) (ha : 0 ≤ a) (ha2 : monthOffset leap m + a < monthOffset leap (m + 1))
    (hb : 0 ≤ b) (hb2 : monthOffset leap m2 + b < monthOffset leap (m2 + 1))
    (e : monthOffset leap m + a = monthOffset leap m2 + b) : m = m2 := by
  rcases lt_trichotomy m m2 with h | h | h
  · have := monthOffset_mono leap (m + 1) m2 (by omega) (by omega) (by omega)
    omega
  · exact h
  · have := monthOffset_mono leap (m2 + 1) m (by omega) (by omega) (by omega)
    omega

/-- The fields of a valid calendar date are read back from the instant `time.Date` builds. -/
theorem absDate_Date (y m d : Int) (h1 : 1 ≤ m) (h12 : m ≤ 12) (hd1 : 1 ≤ d)
    (hd : d ≤ daysIn m y) :
    Year (Date y m d) = y ∧ Month (Date y m d) = m ∧ Day (Date y m d) = d := by
  obtain ⟨b1, b2, b3⟩ := dayOfYear_bounds y m d h1 h12 hd1 hd
  obtain ⟨s1, s2, s3, s4, s5⟩ := absDate_spec (Date y m d)
  have e := Date_of_month y m d h1 h12
  generalize Date y m d = t at *
  generalize Year t = y2 at *
  generalize Month t = m2 at *
  generalize Day t = d2 at *
  have hm13 := monthOffset_mono (isLeap y2) (m2 + 1) 13 (by omega) (by omega) (le_refl _)
  have hm1 := monthOffset_mono (isLeap y2) 1 m2 (le_refl _) s1 (by omega)
  have o1 := (monthOffset_table (isLeap y2)).1
  have hy : y2 = y := year_unique y2 y (monthOffset (isLeap y2) m2 + (d2 - 1))
    (monthOffset (isLeap y) m + (d - 1)) (by omega) (by omega) (by omega) (by omega) (by omega)
  subst hy
  have hmm : m2 = m := month_unique (isLeap y2) m2 m (d2 - 1) (d - 1) s1 s2 h1 h12
    (by omega) (by omega) (by omega) (by omega) (by omega)
  subst hmm
  exact ⟨rfl, rfl, by omega⟩

/-- The day of the month is at most the length of the month. -/
theorem Day_le_daysIn (t : Int) : Day t ≤ daysIn (Month t) (Year t) := by
  obtain ⟨h1, h2, _, _, h5⟩ := absDate_spec t
  have := monthOffset_succ (Year t) (Month t) h1 h2
  omega

/-- Months are 28 to 31 days long. -/
theorem daysIn_bounds (y m : Int) (h1 : 1 ≤ m) (h12 : m ≤ 12) :
    28 ≤ daysIn m y ∧ daysIn m y ≤ 31 := by
  have := monthOffset_succ y m h1 h12
  have := monthOffset_step (isLeap y) m h1 h12
  omega


/-! ## The calendar: months -/

/-- The month normalisation of `time.Date`. -/
theorem Date_month_carry (y k d : Int) : Date y (k + 1) d = Date (y + k / 12) (k % 12 + 1) d := by
  have e1 : k % 12 / 12 = 0 := by omega
  have e2 : k % 12 % 12 = k % 12 := by omega
  simp only [Date, add_sub_cancel_right, e1, e2, add_zero]

/-- Every `time.Date` value counts days from the first of its (normalised) month. -/
theorem Date_eq_monthStart (y m d : Int) : Date y m d = monthStart (y * 12 + (m - 1)) + (d - 1) := by
  have e1 : (y * 12 + (m - 1)) / 12 = y + (m - 1) / 12 := by omega
  have e2 : (y * 12 + (m - 1)) % 12 = (m - 1) % 12 := by omega
  simp only [monthStart, Date, add_sub_cancel_right, e1, e2, zero_add]
  omega

/-- The next month starts `daysIn` days after this one, also across a year end. -/
theorem monthStart_succ (k : Int) :
    monthStart (k + 1) = monthStart k + daysIn (k % 12 + 1) (k / 12) := by
  have hk : 0 ≤ k % 12 ∧ k % 12 < 12 := by omega
  have a : monthStart k = daysSinceEpoch (k / 12) + monthOffset (isLeap (k / 12)) (k % 12 + 1) := by
    rw [monthStart, Date_month_carry, Date_of_month _ _ _ (by omega) (by omega)]; simp
  have hs := monthOffset_succ (k / 12) (k % 12 + 1) (by omega) (by omega)
  by_cases c : k % 12 = 11
  · have e1 : (k + 1) / 12 = k / 12 + 1 := by omega
    have e2 : (k + 1) % 12 = 0 := by omega
    have b : monthStart (k + 1) = daysSinceEpoch (k / 12 + 1) := by
      rw [monthStart, Date_month_carry, Date_of_month _ _ _ (by omega) (by omega), e1, e2]
      have := (monthOffset_table (isLeap (k / 12 + 1))).1
      simp only [zero_add]
      omega
    rw [b, a, daysSinceEpoch_succ]
    rw [c] at hs ⊢
    norm_num only at hs ⊢
    omega
  · have e1 : (k + 1) / 12 = k / 12 := by omega
    have e2 : (k + 1) % 12 = k % 12 + 1 := by omega
    have b : monthStart (k + 1) =
        daysSinceEpoch (k / 12) + monthOffset (isLeap (k / 12)) (k % 12 + 1 + 1) := by
      rw [monthStart, Date_month_carry, Date_of_month _ _ _ (by omega) (by omega), e1, e2]; simp
    rw [b, a]
    omega

/-- Consecutive month starts are 28 to 31 days apart. -/
theorem monthStart_step (k : Int) : monthStart k + 28 ≤ monthStart (k + 1) ∧
    monthStart (k + 1) ≤ monthStart k + 31 := by
  have := monthStart_succ k
  have := daysIn_bounds (k / 12) (k % 12 + 1) (by omega) (by omega)
  omega

/-- Month starts grow by at least 28 days a month. -/
theorem monthStart_mono_aux (a : Int) (n : Nat) : monthStart a + 28 * n ≤ monthStart (a + n) := by
  induction n with
  | zero => simp
  | succ n ih =>
    have := (monthStart_step (a + n)).1
    push_cast
    rw [← add_assoc]
    omega

/-- A later month starts at least 28 days later. -/
theorem monthStart_lt {a b : Int} (h : a < b) : monthStart a + 28 ≤ monthStart b := by
  have h1 := monthStart_mono_aux a (b - a).toNat
  have e : a + ((b - a).toNat : Int) = b := by omega
  rw [e] at h1
  omega

/-- Month starts are monotone. -/
theorem monthStart_le {a b : Int} (h : a ≤ b) : monthStart a ≤ monthStart b := by
  rcases eq_or_lt_of_le h with e | l
  · rw [e]
  · have := monthStart_lt l; omega

/-- Year and month are recovered from the month index. -/
theorem monthIndex_parts (t : Int) :
    monthIndex t / 12 = Year t ∧ monthIndex t % 12 + 1 = Month t := by
  obtain ⟨h1, h2, _⟩ := absDate_spec t
  unfold monthIndex
  omega

/-- An instant lies in the month of its month index, at its day of the month. -/
theorem month_span (t : Int) :
    monthStart (monthIndex t) + (Day t - 1) = t ∧ monthStart (monthIndex t) ≤ t ∧
      t < monthStart (monthIndex t + 1) := by
  have h := Date_absDate t
  rw [Date_eq_monthStart] at h
  have hs := monthStart_succ (monthIndex t)
  obtain ⟨e1, e2⟩ := monthIndex_parts t
  rw [e1, e2] at hs
  have := Day_le_daysIn t
  obtain ⟨_, _, h3, _⟩ := absDate_spec t
  unfold monthIndex at *
  omega

/-- Later instants are in the same or a later month. -/
theorem monthIndex_mono {t u : Int} (h : t ≤ u) : monthIndex t ≤ monthIndex u := by
  by_contra c
  have h1 := monthStart_le (show monthIndex u + 1 ≤ monthIndex t by omega)
  have := month_span t
  have := month_span u
  omega

/-- The span of a month determines the month index. -/
theorem monthIndex_unique (t k : Int) (h1 : monthStart k ≤ t) (h2 : t < monthStart (k + 1)) :
    monthIndex t = k := by
  have hs := month_span t
  rcases lt_trichotomy (monthIndex t) k with c | c | c
  · have := monthStart_le (show monthIndex t + 1 ≤ k by omega); omega
  · exact c
  · have := monthStart_le (show k + 1 ≤ monthIndex t by omega); omega

/-- Same month index means same year and same month. -/
theorem monthIndex_eq_iff (t u : Int) :
    monthIndex t = monthIndex u ↔ (Year t = Year u ∧ Month t = Month u) := by
  constructor
  · intro h
    have a := monthIndex_parts t
    have b := monthIndex_parts u
    rw [h] at a
    exact ⟨a.1.symm.trans b.1, a.2.symm.trans b.2⟩
  · rintro ⟨h1, h2⟩
    simp only [monthIndex, h1, h2]

/-- The first of a month is in that month. -/
theorem monthIndex_monthStart (k : Int) : monthIndex (monthStart k) = k :=
  monthIndex_unique _ k (le_refl _) (by have := monthStart_step k; omega)

/-- The next day is in the same or the next month. -/
theorem monthIndex_succ_le (t : Int) : monthIndex (t + 1) ≤ monthIndex t + 1 := by
  have h := month_span t
  have := monthIndex_mono (show t + 1 ≤ monthStart (monthIndex t + 1) by omega)
  rw [monthIndex_monthStart] at this
  exact this

/-- The first of the following month, as `calculateMonthRule` computes it. -/
theorem next_month_first (t : Int) :
    Date (Year t) (Month t + 1) 1 = monthStart (monthIndex t + 1) := by
  rw [Date_eq_monthStart]
  simp only [monthIndex]
  ring_nf

/-- The last day of the month, as `calculateMonthRule` computes it. -/
theorem lastDay_eq (t : Int) :
    Day (Date (Year t) (Month t + 1) 0) = daysIn (Month t) (Year t) := by
  obtain ⟨h1, h2, _⟩ := absDate_spec t
  have hb := daysIn_bounds (Year t) (Month t) h1 h2
  have e : Date (Year t) (Month t + 1) 0 = Date (Year t) (Month t) (daysIn (Month t) (Year t)) := by
    rw [Date_eq_monthStart, Date_eq_monthStart]
    have hs := monthStart_succ (monthIndex t)
    obtain ⟨e1, e2⟩ := monthIndex_parts t
    rw [e1, e2] at hs
    simp only [monthIndex] at hs
    have e3 : Year t * 12 + (Month t + 1 - 1) = Year t * 12 + (Month t - 1) + 1 := by ring
    rw [e3, hs]
    ring
  rw [e]
  exact (absDate_Date _ _ _ h1 h2 (by omega) (le_refl _)).2.2


/-! ## The calendar: years -/

/-- Only February depends on the year. -/
theorem daysIn_year_indep (m y y2 : Int) (h : m ≠ 2) : daysIn m y = daysIn m y2 := by
  simp [daysIn, h]

/-- The length of February. -/
theorem daysIn_feb (y : Int) : daysIn 2 y = if isLeap y = true then 29 else 28 := by
  obtain ⟨t0, t1, t2, _⟩ := daysBefore_table
  unfold daysIn
  by_cases c : isLeap y = true
  · simp [c]
  · simp only [c, and_false, if_false]
    norm_num only
    rw [t1, t2]
    simp

/-- A month and day that exist in every year. -/
theorem fixedDay_valid (m d y y2 : Int) (hd : d ≤ daysIn m y) (hn : ¬ (m = 2 ∧ d = 29)) :
    d ≤ daysIn m y2 := by
  by_cases c : m = 2
  · subst c
    rw [daysIn_feb] at hd ⊢
    split at hd <;> split <;> omega
  · rw [daysIn_year_indep m y2 y c]; exact hd

/-- The same month and day one year later are 365 or 366 days away. -/
theorem Date_year_succ (y m d : Int) (h1 : 1 ≤ m) (h12 : m ≤ 12) :
    Date y m d + 365 ≤ Date (y + 1) m d ∧ Date (y + 1) m d ≤ Date y m d + 366 := by
  rw [Date_of_month _ _ _ h1 h12, Date_of_month _ _ _ h1 h12, daysSinceEpoch_succ]
  have h13 := (monthOffset_table (isLeap y)).2.2.2.2.2.2.2.2.2.2.2.2
  generalize monthOffset (isLeap y) 13 = A at h13 ⊢
  have hl : isLeap y = true → isLeap (y + 1) = false := by
    intro h
    rw [isLeap_iff] at h
    have : ¬ isLeap (y + 1) = true := by rw [isLeap_iff]; omega
    simpa using this
  simp only [monthOffset]
  cases h : isLeap y <;> cases h2 : isLeap (y + 1) <;> simp only [h, h2] at h13 hl ⊢ <;>
    simp at hl h13 ⊢ <;> (try split) <;> omega

/-- The year after a leap year is not a leap year. -/
theorem leap_succ_not_leap (y : Int) (h : isLeap y = true) : isLeap (y + 1) = false := by
  rw [isLeap_iff] at h
  have : ¬ isLeap (y + 1) = true := by rw [isLeap_iff]; omega
  simpa using this


/-! ## Date strings -/

/-- Digit characters are read back and take one byte. -/
theorem digitVal_digitChar (v : Nat) (h : v < 10) :
    digitVal (digitChar v) = some v ∧ (digitChar v).utf8Size = 1 := by
  interval_cases v <;> exact ⟨rfl, rfl⟩

/-- Only digit characters have a digit value. -/
theorem digitVal_some (c : Char) (v : Nat) (h : digitVal c = some v) :
    v < 10 ∧ c = digitChar v := by
  unfold digitVal at h
  split at h
  · rename_i hc
    simp only [Option.some.injEq] at h
    refine ⟨by omega, ?_⟩
    have e : 48 + v = c.toNat := by omega
    rw [digitChar, e]
    exact (Char.ofNat_toNat c).symm
  · exact absurd h (by simp)

/-- A successful `getnum` read two digit characters. -/
theorem getnum2_some (s rest : List Char) (n : Int) (h : getnum2 s = some (n, rest)) :
    ∃ x y : Nat, x < 10 ∧ y < 10 ∧ s = digitChar x :: digitChar y :: rest ∧
      n = ((10 * x + y : Nat) : Int) := by
  unfold getnum2 at h
  split at h
  · rename_i a b rest2
    split at h
    · rename_i x y hx hy
      simp only [Option.some.injEq, Prod.mk.injEq] at h
      obtain ⟨hx1, hx2⟩ := digitVal_some _ _ hx
      obtain ⟨hy1, hy2⟩ := digitVal_some _ _ hy
      exact ⟨x, y, hx1, hy1, by rw [hx2, hy2, h.2], h.1.symm⟩
    · exact absurd h (by simp)
  · exact absurd h (by simp)

/-- Two digit characters are read by `getnum`. -/
theorem getnum2_digits (x y : Nat) (hx : x < 10) (hy : y < 10) (rest : List Char) :
    getnum2 (digitChar x :: digitChar y :: rest) = some (((10 * x + y : Nat) : Int), rest) := by
  simp only [getnum2, (digitVal_digitChar x hx).1, (digitVal_digitChar y hy).1]

/-- A four-character year field is read from four digit characters. -/
theorem digitsVal4 (a b c d : Char) (n : Nat) (h : digitsVal [a, b, c, d] 0 = some n) :
    ∃ w x y z : Nat, w < 10 ∧ x < 10 ∧ y < 10 ∧ z < 10 ∧ a = digitChar w ∧ b = digitChar x ∧
      c = digitChar y ∧ d = digitChar z ∧ n = 1000 * w + 100 * x + 10 * y + z := by
  simp only [digitsVal] at h
  cases ha : digitVal a with
  | none => rw [ha] at h; exact absurd h (by simp)
  | some w =>
    cases hb : digitVal b with
    | none => rw [ha, hb] at h; exact absurd h (by simp)
    | some x =>
      cases hc : digitVal c with
      | none => rw [ha, hb, hc] at h; exact absurd h (by simp)
      | some y =>
        cases hd : digitVal d with
        | none => rw [ha, hb, hc, hd] at h; exact absurd h (by simp)
        | some z =>
          rw [ha, hb, hc, hd] at h
          simp only [Option.some.injEq] at h
          obtain ⟨h1, e1⟩ := digitVal_some _ _ ha
          obtain ⟨h2, e2⟩ := digitVal_some _ _ hb
          obtain ⟨h3, e3⟩ := digitVal_some _ _ hc
          obtain ⟨h4, e4⟩ := digitVal_some _ _ hd
          exact ⟨w, x, y, z, h1, h2, h3, h4, e1, e2, e3, e4, by omega⟩

/-- A successful `time.Parse` read eight digits that form a calendar date. -/
theorem timeParse_some (l : List Char) (t : Int) (h : timeParse l = some t) :
    ∃ a b c d e f g h : Nat,
      a < 10 ∧ b < 10 ∧ c < 10 ∧ d < 10 ∧ e < 10 ∧ f < 10 ∧ g < 10 ∧ h < 10 ∧
      l = [digitChar a, digitChar b, digitChar c, digitChar d, digitChar e, digitChar f,
        digitChar g, digitChar h] ∧
      1 ≤ 10 * e + f ∧ 10 * e + f ≤ 12 ∧ 1 ≤ 10 * g + h ∧
      ((10 * g + h : Nat) : Int) ≤
        daysIn ((10 * e + f : Nat) : Int) ((1000 * a + 100 * b + 10 * c + d : Nat) : Int) ∧
      t = Date ((1000 * a + 100 * b + 10 * c + d : Nat) : Int) ((10 * e + f : Nat) : Int)
        ((10 * g + h : Nat) : Int) := by
  unfold timeParse at h
  split at h
  · rename_i a b c d rest
    split at h
    · exact absurd h (by simp)
    · rename_i year hy
      obtain ⟨w, x, y, z, h1, h2, h3, h4, e1, e2, e3, e4, ey⟩ := digitsVal4 _ _ _ _ _ hy
      split at h
      · exact absurd h (by simp)
      · rename_i month rest2 hm
        obtain ⟨m1, m2, hm1, hm2, em, emv⟩ := getnum2_some _ _ _ hm
        split at h
        · exact absurd h (by simp)
        · rename_i hmr
          split at h
          · exact absurd h (by simp)
          · rename_i day rest3 hd
            obtain ⟨d1, d2, hd1, hd2, ed, edv⟩ := getnum2_some _ _ _ hd
            split at h
            · exact absurd h (by simp)
            · rename_i hnil
              split at h
              · exact absurd h (by simp)
              · rename_i hdr
                simp only [ne_eq, not_not] at hnil
                simp only [Option.some.injEq] at h
                subst e1 e2 e3 e4 emv edv ey hnil
                refine ⟨w, x, y, z, m1, m2, d1, d2, h1, h2, h3, h4, hm1, hm2, hd1, hd2, ?_,
                  ?_, ?_, ?_, ?_, h.symm⟩
                · rw [em, ed]
                · omega
                · omega
                · omega
                · omega
  · exact absurd h (by simp)

/-- Eight digits that form a calendar date are parsed to that date. -/
theorem timeParse_digits (a b c d e f g h : Nat)
    (ha : a < 10) (hb : b < 10) (hc : c < 10) (hd : d < 10) (he : e < 10) (hf : f < 10)
    (hg : g < 10) (hh : h < 10) (m1 : 1 ≤ 10 * e + f) (m2 : 10 * e + f ≤ 12)
    (d1 : 1 ≤ 10 * g + h)
    (d2 : ((10 * g + h : Nat) : Int) ≤
      daysIn ((10 * e + f : Nat) : Int) ((1000 * a + 100 * b + 10 * c + d : Nat) : Int)) :
    timeParse [digitChar a, digitChar b, digitChar c, digitChar d, digitChar e, digitChar f,
        digitChar g, digitChar h] =
      some (Date ((1000 * a + 100 * b + 10 * c + d : Nat) : Int) ((10 * e + f : Nat) : Int)
        ((10 * g + h : Nat) : Int)) := by
  have hy : digitsVal [digitChar a, digitChar b, digitChar c, digitChar d] 0 =
      some (1000 * a + 100 * b + 10 * c + d) := by
    simp only [digitsVal, (digitVal_digitChar a ha).1, (digitVal_digitChar b hb).1,
      (digitVal_digitChar c hc).1, (digitVal_digitChar d hd).1, Option.some.injEq]
    omega
  have c1 : ¬ (((10 * e + f : Nat) : Int) ≤ 0 ∨ 12 < ((10 * e + f : Nat) : Int)) := by omega
  have c2 : ¬ (((10 * g + h : Nat) : Int) < 1 ∨ ((10 * g + h : Nat) : Int) >
      daysIn ((10 * e + f : Nat) : Int) ((1000 * a + 100 * b + 10 * c + d : Nat) : Int)) := by
    omega
  simp only [timeParse, hy, getnum2_digits e f he hf, getnum2_digits g h hg hh, if_neg c1,
    if_neg c2, ne_eq, not_true_eq_false, if_false]

/-- The function `ValidateDate` accepts exactly the 8-digit calendar date strings. -/
theorem ValidateDate_iff (s : String) : ValidateDate s = .ok () ↔ IsCalendarDateString s := by
  constructor
  · intro h
    unfold ValidateDate at h
    split at h
    · exact absurd h (by simp)
    · split at h
      · exact absurd h (by simp)
      · rename_i t ht
        obtain ⟨a, b, c, d, e, f, g, hh, h1, h2, h3, h4, h5, h6, h7, h8, el, r1, r2, r3, r4, _⟩ :=
          timeParse_some _ _ ht
        exact ⟨a, b, c, d, e, f, g, hh, h1, h2, h3, h4, h5, h6, h7, h8, el, r1, r2, r3, r4⟩
  · rintro ⟨a, b, c, d, e, f, g, hh, h1, h2, h3, h4, h5, h6, h7, h8, el, r1, r2, r3, r4⟩
    have hlen : s.utf8ByteSize = 8 := by
      have : s = String.mk s.data := rfl
      rw [this, el]
      simp only [String.utf8ByteSize, String.utf8ByteSize.go, (digitVal_digitChar a h1).2,
        (digitVal_digitChar b h2).2, (digitVal_digitChar c h3).2, (digitVal_digitChar d h4).2,
        (digitVal_digitChar e h5).2, (digitVal_digitChar f h6).2, (digitVal_digitChar g h7).2,
        (digitVal_digitChar hh h8).2]
    simp only [ValidateDate, hlen, ne_eq, not_true_eq_false, if_false, el,
      timeParse_digits a b c d e f g hh h1 h2 h3 h4 h5 h6 h7 h8 r1 r2 r3 r4]

/-- After `ValidateDate`, `ParseDate` succeeds. -/
theorem ValidateDate_ParseDate (s : String) (h : ValidateDate s = .ok ()) :
    ∃ base, ParseDate s = .ok base := by
  unfold ValidateDate at h
  split at h
  · exact absurd h (by simp)
  · split at h
    · exact absurd h (by simp)
    · rename_i t ht
      exact ⟨t, by simp only [ParseDate, ht]⟩

/-- The digit characters of `Nat.toDigits`. -/
theorem natDigitChar_eq (n : Nat) (h : n < 10) : Nat.digitChar n = digitChar n := by
  interval_cases n <;> rfl

/-- One step of `Nat.toDigitsCore` in base 10. -/
theorem toDigitsCore_step (fuel n : Nat) (ds : List Char) :
    Nat.toDigitsCore 10 (fuel + 1) n ds =
      if n / 10 = 0 then Nat.digitChar (n % 10) :: ds
      else Nat.toDigitsCore 10 fuel (n / 10) (Nat.digitChar (n % 10) :: ds) := by
  simp only [Nat.toDigitsCore]

/-- The decimal digits of a number below 10000. -/
theorem toDigits_lt_10000 (n : Nat) (h : n < 10000) :
    Nat.toDigits 10 n =
      if n < 10 then [digitChar n]
      else if n < 100 then [digitChar (n / 10), digitChar (n % 10)]
      else if n < 1000 then [digitChar (n / 100), digitChar (n / 10 % 10), digitChar (n % 10)]
      else [digitChar (n / 1000), digitChar (n / 100 % 10), digitChar (n / 10 % 10),
        digitChar (n % 10)] := by
  have e2 : n / 10 / 10 = n / 100 := by omega
  have e3 : n / 100 / 10 = n / 1000 := by omega
  unfold Nat.toDigits
  rw [toDigitsCore_step]
  by_cases c1 : n < 10
  · have m1 : n % 10 = n := by omega
    rw [if_pos (by omega), if_pos c1, natDigitChar_eq _ (by omega), m1]
  · rw [if_neg (by omega), if_neg c1]
    obtain ⟨f1, hf1⟩ : ∃ f, n = f + 1 := ⟨n - 1, by omega⟩
    rw [show Nat.toDigitsCore 10 n = Nat.toDigitsCore 10 (f1 + 1) by rw [hf1], toDigitsCore_step,
      e2]
    by_cases c2 : n < 100
    · have m2 : n / 10 % 10 = n / 10 := by omega
      rw [if_pos (by omega), if_pos c2, natDigitChar_eq _ (by omega),
        natDigitChar_eq _ (by omega), m2]
    · rw [if_neg (by omega), if_neg c2]
      obtain ⟨f2, hf2⟩ : ∃ f, f1 = f + 1 := ⟨f1 - 1, by omega⟩
      rw [hf2, toDigitsCore_step, e3]
      by_cases c3 : n < 1000
      · have m3 : n / 100 % 10 = n / 100 := by omega
        rw [if_pos (by omega), if_pos c3, natDigitChar_eq _ (by omega),
          natDigitChar_eq _ (by omega), natDigitChar_eq _ (by omega), m3]
      · rw [if_neg (by omega), if_neg c3]
        obtain ⟨f3, hf3⟩ : ∃ f, f2 = f + 1 := ⟨f2 - 1, by omega⟩
        have m4 : n / 1000 % 10 = n / 1000 := by omega
        rw [hf3, toDigitsCore_step, if_pos (by omega), natDigitChar_eq _ (by omega),
          natDigitChar_eq _ (by omega), natDigitChar_eq _ (by omega),
          natDigitChar_eq _ (by omega), m4]

/-- A year in `0..9999` is printed with four digits. -/
theorem appendInt_four (x : Int) (h0 : 0 ≤ x) (h1 : x ≤ 9999) :
    appendInt x 4 = [digitChar (x.toNat / 1000), digitChar (x.toNat / 100 % 10),
      digitChar (x.toNat / 10 % 10), digitChar (x.toNat % 10)] := by
  have hn : x.natAbs = x.toNat := by omega
  have hz : (Char.ofNat 48) = digitChar 0 := rfl
  have hlt : x.toNat < 10000 := by omega
  simp only [appendInt, hn, toDigits_lt_10000 _ hlt, if_neg (show ¬ x < 0 by omega)]
  by_cases c1 : x.toNat < 10
  · have a1 : x.toNat / 1000 = 0 := by omega
    have a2 : x.toNat / 100 % 10 = 0 := by omega
    have a3 : x.toNat / 10 % 10 = 0 := by omega
    have a4 : x.toNat % 10 = x.toNat := by omega
    rw [if_pos c1, a1, a2, a3, a4]; rfl
  · rw [if_neg c1]
    by_cases c2 : x.toNat < 100
    · have a1 : x.toNat / 1000 = 0 := by omega
      have a2 : x.toNat / 100 % 10 = 0 := by omega
      have a3 : x.toNat / 10 % 10 = x.toNat / 10 := by omega
      rw [if_pos c2, a1, a2, a3]; rfl
    · rw [if_neg c2]
      by_cases c3 : x.toNat < 1000
      · have a1 : x.toNat / 1000 = 0 := by omega
        have a2 : x.toNat / 100 % 10 = x.toNat / 100 := by omega
        rw [if_pos c3, a1, a2]; rfl
      · rw [if_neg c3]; rfl

/-- A month or day is printed with two digits. -/
theorem appendInt_two (x : Int) (h0 : 0 ≤ x) (h1 : x ≤ 99) :
    appendInt x 2 = [digitChar (x.toNat / 10), digitChar (x.toNat % 10)] := by
  have hn : x.natAbs = x.toNat := by omega
  have hlt : x.toNat < 10000 := by omega
  simp only [appendInt, hn, toDigits_lt_10000 _ hlt, if_neg (show ¬ x < 0 by omega)]
  by_cases c1 : x.toNat < 10
  · have a1 : x.toNat / 10 = 0 := by omega
    have a4 : x.toNat % 10 = x.toNat := by omega
    rw [if_pos c1, a1, a4]; rfl
  · rw [if_neg c1, if_pos (show x.toNat < 100 by omega)]; rfl

/-- Within the years `0..9999` the formatted date is an 8-digit calendar date string that
parses back to the same day. -/
theorem FormatDate_roundtrip (t : Int) (h0 : 0 ≤ Year t) (h1 : Year t ≤ 9999) :
    IsCalendarDateString (FormatDate t) ∧ ParseDate (FormatDate t) = .ok t := by
  obtain ⟨m1, m12, d1, _⟩ := absDate_spec t
  have hd := Day_le_daysIn t
  have hb := daysIn_bounds (Year t) (Month t) m1 m12
  have hdata : (FormatDate t).data =
      [digitChar ((Year t).toNat / 1000), digitChar ((Year t).toNat / 100 % 10),
        digitChar ((Year t).toNat / 10 % 10), digitChar ((Year t).toNat % 10),
        digitChar ((Month t).toNat / 10), digitChar ((Month t).toNat % 10),
        digitChar ((Day t).toNat / 10), digitChar ((Day t).toNat % 10)] := by
    simp only [FormatDate, timeFormat, appendInt_four _ h0 h1,
      appendInt_two _ (show 0 ≤ Month t by omega) (show Month t ≤ 99 by omega),
      appendInt_two _ (show 0 ≤ Day t by omega) (show Day t ≤ 99 by omega)]
    rfl
  have ey : ((1000 * ((Year t).toNat / 1000) + 100 * ((Year t).toNat / 100 % 10) +
      10 * ((Year t).toNat / 10 % 10) + (Year t).toNat % 10 : Nat) : Int) = Year t := by omega
  have em : ((10 * ((Month t).toNat / 10) + (Month t).toNat % 10 : Nat) : Int) = Month t := by
    omega
  have ed : ((10 * ((Day t).toNat / 10) + (Day t).toNat % 10 : Nat) : Int) = Day t := by omega
  have hday : ((10 * ((Day t).toNat / 10) + (Day t).toNat % 10 : Nat) : Int) ≤
      daysIn ((10 * ((Month t).toNat / 10) + (Month t).toNat % 10 : Nat) : Int)
        ((1000 * ((Year t).toNat / 1000) + 100 * ((Year t).toNat / 100 % 10) +
          10 * ((Year t).toNat / 10 % 10) + (Year t).toNat % 10 : Nat) : Int) := by
    rw [ey, em, ed]; exact hd
  have hp := timeParse_digits ((Year t).toNat / 1000) ((Year t).toNat / 100 % 10)
    ((Year t).toNat / 10 % 10) ((Year t).toNat % 10) ((Month t).toNat / 10)
    ((Month t).toNat % 10) ((Day t).toNat / 10) ((Day t).toNat % 10)
    (by omega) (by omega) (by omega) (by omega) (by omega) (by omega) (by omega) (by omega)
    (by omega) (by omega) (by omega) hday
  rw [ey, em, ed, Date_absDate] at hp
  constructor
  · exact ⟨_, _, _, _, _, _, _, _, by omega, by omega, by omega, by omega, by omega, by omega,
      by omega, by omega, hdata, by omega, by omega, by omega, hday⟩
  · simp only [ParseDate, hdata, hp]


/-! ## The parser: what a successful parse looks like -/

/-- Every element on the right of a `Forall₂` has a partner on the left. -/
theorem forall₂_mem_right {α β : Type} {R : α → β → Prop} {l : List α} {new : List β}
    (h : List.Forall₂ R l new) : ∀ x ∈ new, ∃ a ∈ l, R a x := by
  induction h with
  | nil => intro x hx; simp at hx
  | cons hab _ ih =>
    intro x hx
    rcases List.mem_cons.mp hx with rfl | hx
    · exact ⟨_, List.mem_cons_self _ _, hab⟩
    · obtain ⟨a, ha, hr⟩ := ih x hx
      exact ⟨a, List.mem_cons_of_mem _ ha, hr⟩

/-- Every element on the left of a `Forall₂` has a partner on the right. -/
theorem forall₂_mem_left {α β : Type} {R : α → β → Prop} {l : List α} {new : List β}
    (h : List.Forall₂ R l new) : ∀ a ∈ l, ∃ x ∈ new, R a x := by
  induction h with
  | nil => intro x hx; simp at hx
  | cons hab _ ih =>
    intro x hx
    rcases List.mem_cons.mp hx with rfl | hx
    · exact ⟨_, List.mem_cons_self _ _, hab⟩
    · obtain ⟨a, ha, hr⟩ := ih x hx
      exact ⟨a, List.mem_cons_of_mem _ ha, hr⟩

/-- A rule has one type. -/
theorem type_ne {a b : String} (h : a ≠ b) {r : RepeatRule} (ha : r.Type_ = a)
    (hb : r.Type_ = b) : False := h (ha.symm.trans hb)

/-- Splitting yields at least one piece. -/
theorem splitAux_ne_nil (sep : Char) : ∀ (s cur : List Char), splitAux sep s cur ≠ [] := by
  intro s
  induction s with
  | nil => intro cur; simp [splitAux]
  | cons c cs ih =>
    intro cur
    unfold splitAux
    split
    · simp
    · exact ih _

/-- The result of `strings.Split` is not empty. -/
theorem Split_ne_nil (s : List Char) : Split s ≠ [] := splitAux_ne_nil _ _ _

/-- What `parseDayRule` accepts, and what it returns then. -/
theorem parseDayRule_ok (r0 r : RepeatRule) (parts : List (List Char))
    (h : parseDayRule r0 parts = .ok r) :
    ∃ p0 p1 N, parts = [p0, p1] ∧ Atoi p1 = some N ∧ 1 ≤ N ∧ N ≤ 400 ∧
      r = { r0 with Days := N } := by
  unfold parseDayRule at h
  split at h
  · rename_i p0 p1
    split at h
    · exact absurd h (by simp)
    · rename_i days hd
      split at h
      · exact absurd h (by simp)
      · rename_i hr
        simp only [maxDaysInterval, not_or, not_le, not_lt] at hr
        refine ⟨p0, p1, days, rfl, hd, by omega, by omega, ?_⟩
        simpa using h.symm
  · exact absurd h (by simp)

/-- What the loop of `parseWeekRule` accepts: every piece is a number in `1..7`. -/
theorem parseWeekDays_ok : ∀ (l : List (List Char)) (acc ds : List Int),
    parseWeekDays l acc = .ok ds →
      ∃ new : List Int, ds = acc ++ new ∧ new.length = l.length ∧
        List.Forall₂ (fun tok v => Atoi tok = some v ∧ 1 ≤ v ∧ v ≤ 7) l new := by
  intro l
  induction l with
  | nil =>
    intro acc ds h
    simp only [parseWeekDays, Except.ok.injEq] at h
    exact ⟨[], by simp [h], rfl, List.Forall₂.nil⟩
  | cons tok rest ih =>
    intro acc ds h
    unfold parseWeekDays at h
    split at h
    · exact absurd h (by simp)
    · rename_i day hd
      split at h
      · exact absurd h (by simp)
      · rename_i hr
        simp only [daysInWeek, not_or, not_lt] at hr
        obtain ⟨new, e, hl, hf⟩ := ih _ _ h
        refine ⟨day :: new, by simp [e], by simp [hl], List.Forall₂.cons ⟨hd, hr.1, hr.2⟩ hf⟩

/-- What `parseWeekRule` accepts, and what it returns then. -/
theorem parseWeekRule_ok (r0 r : RepeatRule) (parts : List (List Char))
    (h : parseWeekRule r0 parts = .ok r) :
    ∃ p0 p1 ds, parts = [p0, p1] ∧ parseWeekDays (Split p1) [] = .ok ds ∧
      r = { r0 with DaysWeek := ds } := by
  unfold parseWeekRule at h
  split at h
  · rename_i p0 p1
    split at h
    · exact absurd h (by simp)
    · rename_i ds hd
      exact ⟨p0, p1, ds, rfl, hd, by simpa using h.symm⟩
  · exact absurd h (by simp)

/-- What the day loop of `parseMonthRule` accepts: every piece is a number in `-2..31`. -/
theorem parseMonthDays_ok : ∀ (l : List (List Char)) (acc ds : List Int),
    parseMonthDays l acc = .ok ds →
      ∃ new : List Int, ds = acc ++ new ∧
        List.Forall₂ (fun tok v => Atoi tok = some v ∧ -2 ≤ v ∧ v ≤ 31) l new := by
  intro l
  induction l with
  | nil =>
    intro acc ds h
    simp only [parseMonthDays, Except.ok.injEq] at h
    exact ⟨[], by simp [h], List.Forall₂.nil⟩
  | cons tok rest ih =>
    intro acc ds h
    unfold parseMonthDays at h
    split at h
    · exact absurd h (by simp)
    · rename_i day hd
      split at h
      · exact absurd h (by simp)
      · split at h
        · exact absurd h (by simp)
        · rename_i hr1 hr2
          obtain ⟨new, e, hf⟩ := ih _ _ h
          exact ⟨day :: new, by simp [e], List.Forall₂.cons ⟨hd, by omega, by omega⟩ hf⟩

/-- What the month loop of `parseMonthRule` accepts: every piece is a number in `1..12`. -/
theorem parseMonths_ok : ∀ (l : List (List Char)) (acc ds : List Int),
    parseMonths l acc = .ok ds →
      ∃ new : List Int, ds = acc ++ new ∧
        List.Forall₂ (fun tok v => Atoi tok = some v ∧ 1 ≤ v ∧ v ≤ 12) l new := by
  intro l
  induction l with
  | nil =>
    intro acc ds h
    simp only [parseMonths, Except.ok.injEq] at h
    exact ⟨[], by simp [h], List.Forall₂.nil⟩
  | cons tok rest ih =>
    intro acc ds h
    unfold parseMonths at h
    split at h
    · exact absurd h (by simp)
    · rename_i month hd
      split at h
      · exact absurd h (by simp)
      · rename_i hr
        simp only [monthsInYear, not_or, not_lt] at hr
        obtain ⟨new, e, hf⟩ := ih _ _ h
        exact ⟨month :: new, by simp [e], List.Forall₂.cons ⟨hd, hr.1, hr.2⟩ hf⟩

/-- What `parseMonthRule` accepts, and what it returns then. -/
theorem parseMonthRule_ok (r0 r : RepeatRule) (parts : List (List Char))
    (h : parseMonthRule r0 parts = .ok r) :
    ∃ p0 p1 ds, parseMonthDays (Split p1) [] = .ok ds ∧
      ((parts = [p0, p1] ∧ r = { r0 with MonthDays := ds }) ∨
       (∃ p2 ms, parts = [p0, p1, p2] ∧ parseMonths (Split p2) [] = .ok ms ∧
          r = { r0 with MonthDays := ds, Months := ms })) := by
  unfold parseMonthRule at h
  split at h
  · rename_i p0 p1
    split at h
    · exact absurd h (by simp)
    · rename_i ds hd
      exact ⟨p0, p1, ds, hd, Or.inl ⟨rfl, by simpa using h.symm⟩⟩
  · rename_i p0 p1 p2
    split at h
    · exact absurd h (by simp)
    · rename_i ds hd
      split at h
      · exact absurd h (by simp)
      · rename_i ms hm
        exact ⟨p0, p1, ds, hd, Or.inr ⟨p2, ms, rfl, hm, by simpa using h.symm⟩⟩
  · exact absurd h (by simp)

/-- A successful `ParseRepeatRule` went through exactly one of its four cases. -/
theorem ParseRepeatRule_ok (s : String) (r : RepeatRule) (h : ParseRepeatRule s = .ok r) :
    ∃ p0 rest, Fields s.data = p0 :: rest ∧ r.Type_ = String.mk p0 ∧
      ((r.Type_ = "d" ∧ parseDayRule (newRule p0) (p0 :: rest) = .ok r) ∨
       (r.Type_ = "y" ∧ rest = [] ∧ r = newRule p0) ∨
       (r.Type_ = "w" ∧ parseWeekRule (newRule p0) (p0 :: rest) = .ok r) ∨
       (r.Type_ = "m" ∧ parseMonthRule (newRule p0) (p0 :: rest) = .ok r)) := by
  unfold ParseRepeatRule at h
  simp only at h
  split at h
  · exact absurd h (by simp)
  · rename_i p0 rest hf
    refine ⟨p0, rest, hf, ?_⟩
    have hn : (newRule p0).Type_ = String.mk p0 := rfl
    rw [hf] at h
    split at h
    · rename_i c
      obtain ⟨_, _, N, _, _, _, _, e⟩ := parseDayRule_ok _ _ _ h
      have ht : r.Type_ = String.mk p0 := by rw [e]; rfl
      exact ⟨ht, Or.inl ⟨by rw [ht, ← hn]; exact c, h⟩⟩
    · split at h
      · rename_i c
        split at h
        · exact absurd h (by simp)
        · rename_i hr
          simp only [ne_eq, not_not] at hr
          simp only [Except.ok.injEq] at h
          subst h
          exact ⟨rfl, Or.inr (Or.inl ⟨c, hr, rfl⟩)⟩
      · split at h
        · rename_i c
          obtain ⟨_, _, ds, _, _, e⟩ := parseWeekRule_ok _ _ _ h
          have ht : r.Type_ = String.mk p0 := by rw [e]; rfl
          exact ⟨ht, Or.inr (Or.inr (Or.inl ⟨by rw [ht, ← hn]; exact c, h⟩))⟩
        · split at h
          · rename_i c
            have ht : r.Type_ = String.mk p0 := by
              obtain ⟨_, _, ds, _, ⟨_, e⟩ | ⟨_, _, _, _, e⟩⟩ := parseMonthRule_ok _ _ _ h <;> rw [e] <;> rfl
            exact ⟨ht, Or.inr (Or.inr (Or.inr ⟨by rw [ht, ← hn]; exact c, h⟩))⟩
          · exact absurd h (by simp)

/-- A parsed weekly rule has a non-empty weekday list with values in `1..7`. -/
theorem parsed_week_days (s : String) (r : RepeatRule) (hp : ParseRepeatRule s = .ok r)
    (hw : r.Type_ = "w") :
    r.DaysWeek ≠ [] ∧ ∀ x ∈ r.DaysWeek, 1 ≤ x ∧ x ≤ 7 := by
  obtain ⟨p0, rest, hf, ht, h⟩ := ParseRepeatRule_ok s r hp
  have hne : ∀ a b : String, a ≠ b → r.Type_ = a → r.Type_ = b → False := by
    intro a b hab ha hb; exact hab (ha.symm.trans hb)
  rcases h with ⟨hd, _⟩ | ⟨hy, _⟩ | ⟨_, h⟩ | ⟨hm, _⟩
  · exact absurd hw (by rw [hd]; decide)
  · exact absurd hw (by rw [hy]; decide)
  · obtain ⟨q0, q1, ds, _, hds, e⟩ := parseWeekRule_ok _ _ _ h
    obtain ⟨new, e2, hl, hf2⟩ := parseWeekDays_ok _ _ _ hds
    have hD : r.DaysWeek = new := by rw [e]; simpa using e2
    rw [hD]
    constructor
    · intro hnil
      rw [hnil] at hl
      exact Split_ne_nil q1 (List.length_eq_zero.mp hl.symm)
    · intro x hx
      obtain ⟨tok, _, _, h1, h7⟩ := forall₂_mem_right hf2 x hx
      exact ⟨h1, h7⟩
  · exact absurd hw (by rw [hm]; decide)

/-- A parsed monthly rule has day values in `-2..31` and month values in `1..12`. -/
theorem parsed_month_fields (s : String) (r : RepeatRule) (hp : ParseRepeatRule s = .ok r)
    (hm : r.Type_ = "m") :
    (∀ x ∈ r.MonthDays, -2 ≤ x ∧ x ≤ 31) ∧ (∀ x ∈ r.Months, 1 ≤ x ∧ x ≤ 12) := by
  obtain ⟨p0, rest, hf, ht, h⟩ := ParseRepeatRule_ok s r hp
  rcases h with ⟨hd, _⟩ | ⟨hy, _⟩ | ⟨hw, _⟩ | ⟨_, h⟩
  · exact absurd hm (by rw [hd]; decide)
  · exact absurd hm (by rw [hy]; decide)
  · exact absurd hm (by rw [hw]; decide)
  · obtain ⟨q0, q1, ds, hds, ⟨_, e⟩ | ⟨q2, ms, _, hms, e⟩⟩ := parseMonthRule_ok _ _ _ h
    · obtain ⟨new, e2, hf2⟩ := parseMonthDays_ok _ _ _ hds
      have hD : r.MonthDays = new := by rw [e]; simpa using e2
      have hM : r.Months = [] := by rw [e]; rfl
      rw [hD, hM]
      refine ⟨fun x hx => ?_, fun x hx => by simp at hx⟩
      obtain ⟨_, _, _, h1, h2⟩ := forall₂_mem_right hf2 x hx
      exact ⟨h1, h2⟩
    · obtain ⟨new, e2, hf2⟩ := parseMonthDays_ok _ _ _ hds
      obtain ⟨new2, e3, hf3⟩ := parseMonths_ok _ _ _ hms
      have hD : r.MonthDays = new := by rw [e]; simpa using e2
      have hM : r.Months = new2 := by rw [e]; simpa using e3
      rw [hD, hM]
      refine ⟨fun x hx => ?_, fun x hx => ?_⟩
      · obtain ⟨_, _, _, h1, h2⟩ := forall₂_mem_right hf2 x hx
        exact ⟨h1, h2⟩
      · obtain ⟨_, _, _, h1, h2⟩ := forall₂_mem_right hf3 x hx
        exact ⟨h1, h2⟩


/-! ## The interval rule (C1, C6) -/

/-- With a positive step and enough fuel the loop of `calculateDayRule` stops at the first
multiple of the step at or after `now`. -/
theorem dayLoop_spec (N now : Int) (hN : 1 ≤ N) :
    ∀ (fuel : Nat) (next : Int), now - next ≤ fuel →
      ∃ k : Nat, dayLoop N now fuel next = some (next + k * N) ∧ now ≤ next + k * N ∧
        (k = 0 ∨ next + (k - 1) * N < now) := by
  intro fuel
  induction fuel with
  | zero =>
    intro next h
    refine ⟨0, ?_, by simp at h ⊢; omega, Or.inl rfl⟩
    have : ¬ next < now := by simp at h; omega
    simp [dayLoop, Before, this]
  | succ n ih =>
    intro next h
    by_cases c : next < now
    · obtain ⟨k, e, h1, h2⟩ := ih (next + N) (by push_cast at h; omega)
      refine ⟨k + 1, ?_, ?_, Or.inr ?_⟩
      · simp only [dayLoop, Before, c, decide_True, if_true, AddDate_days, e]
        push_cast
        congr 1
        ring
      · push_cast
        have : next + (↑k + 1) * N = next + N + ↑k * N := by ring
        omega
      · rcases h2 with h2 | h2
        · subst h2
          simpa using c
        · push_cast
          have : next + (↑k + 1 - 1) * N = next + N + (↑k - 1) * N := by ring
          omega
    · refine ⟨0, ?_, by simp; omega, Or.inl rfl⟩
      simp [dayLoop, Before, c]

/-- With a positive interval `calculateDayRule` returns a date. -/
theorem calculateDayRule_ok (r : RepeatRule) (now base : Int) (h : 1 ≤ r.Days) :
    ∃ d, calculateDayRule r now base = .ok d := by
  by_cases c : base < now
  · obtain ⟨k, e, _⟩ := dayLoop_spec r.Days now h (now - base).toNat base (by omega)
    exact ⟨base + k * r.Days, by simp [calculateDayRule, Before, c, e]⟩
  · exact ⟨AddDate base 0 0 r.Days, by simp [calculateDayRule, Before, c]⟩

/-- C1 (interval rule, overdue base): for every interval `N` in `[1,400]` and dates
`base < now`, `calculateDayRule` returns a date `R` with `R ≥ now`, `R - N < now`, and
`R - base` a positive multiple of `N`. -/
theorem interval_overdue (r : RepeatRule) (N base now : Int) (hr : r.Days = N)
    (hN1 : 1 ≤ N) (_hN2 : N ≤ 400) (h : base < now) :
    ∃ R : Int, calculateDayRule r now base = .ok R ∧ now ≤ R ∧ R - N < now ∧
      ∃ k : Int, 0 < k ∧ R - base = k * N := by
  obtain ⟨k, e, h1, h2⟩ := dayLoop_spec N now hN1 (now - base).toNat base (by omega)
  refine ⟨base + k * N, ?_, h1, ?_, k, ?_, by ring⟩
  · simp [calculateDayRule, Before, h, hr, e]
  · rcases h2 with h2 | h2
    · subst h2; simp at h1; omega
    · have : base + ↑k * N - N = base + (↑k - 1) * N := by ring
      omega
  · rcases h2 with h2 | h2
    · subst h2; simp at h1; omega
    · by_contra hk
      have hk0 : (k : Int) = 0 := by omega
      rw [hk0] at h1
      simp at h1
      omega

/-- Witness for C1: the rule `d 7`, base 2023-01-01, now 2024-01-01. -/
theorem interval_overdue_witness :
    ∃ R : Int, calculateDayRule { newRule ['d'] with Days := 7 } (Date 2024 1 1) (Date 2023 1 1)
        = .ok R ∧ Date 2024 1 1 ≤ R ∧ R - 7 < Date 2024 1 1 ∧
      ∃ k : Int, 0 < k ∧ R - Date 2023 1 1 = k * 7 :=
  interval_overdue { newRule ['d'] with Days := 7 } 7 (Date 2023 1 1) (Date 2024 1 1) rfl
    (by decide) (by decide) (by decide)

/-- C6 (interval rule, base not overdue): for every interval `N` in `[1,400]` and dates
`base ≥ now`, `calculateDayRule` returns exactly `base + N` days, which is after `now`. -/
theorem interval_not_overdue (r : RepeatRule) (N base now : Int) (hr : r.Days = N)
    (hN1 : 1 ≤ N) (_hN2 : N ≤ 400) (h : now ≤ base) :
    calculateDayRule r now base = .ok (base + N) ∧ now < base + N := by
  have c : ¬ base < now := by omega
  refine ⟨?_, by omega⟩
  simp [calculateDayRule, Before, c, hr, AddDate_days]

/-- Witness for C6: the rule `d 7`, base 2024-03-01, now 2024-01-01. -/
theorem interval_not_overdue_witness :
    calculateDayRule { newRule ['d'] with Days := 7 } (Date 2024 1 1) (Date 2024 3 1)
        = .ok (Date 2024 3 1 + 7) ∧ Date 2024 1 1 < Date 2024 3 1 + 7 :=
  interval_not_overdue { newRule ['d'] with Days := 7 } 7 (Date 2024 3 1) (Date 2024 1 1) rfl
    (by decide) (by decide) (by decide)


/-! ## The weekly rule (C2) -/

/-- The test of the inner loop of `calculateWeekRule`. -/
theorem weekAny_iff (r : RepeatRule) (now next : Int) :
    (r.DaysWeek.any (fun day => decide (isoWeekday next = day) && After next now) = true) ↔
      (isoWeekday next ∈ r.DaysWeek ∧ now < next) := by
  simp only [List.any_eq_true, Bool.and_eq_true, decide_eq_true_eq, After]
  constructor
  · rintro ⟨x, hx, e, h⟩
    exact ⟨e ▸ hx, h⟩
  · rintro ⟨hx, h⟩
    exact ⟨_, hx, rfl, h⟩

/-- The loop of `calculateWeekRule` returns the first matching day among the scanned ones. -/
theorem weekLoop_found (r : RepeatRule) (now : Int) :
    ∀ (n : Nat) (next : Int) (j : Nat), j < n →
      (isoWeekday (next + j) ∈ r.DaysWeek ∧ now < next + j) →
      (∀ i : Nat, i < j → ¬ (isoWeekday (next + i) ∈ r.DaysWeek ∧ now < next + i)) →
      weekLoop r now n next = next + j := by
  intro n
  induction n with
  | zero => intro next j hj; omega
  | succ n ih =>
    intro next j hj hP hmin
    unfold weekLoop
    simp only [weekAny_iff, AddDate_days]
    cases j with
    | zero =>
      simp only [Nat.cast_zero, add_zero] at hP
      rw [if_pos hP]; simp
    | succ j =>
      have h0 := hmin 0 (by omega)
      simp only [Nat.cast_zero, add_zero] at h0
      rw [if_neg h0]
      have := ih (next + 1) j (by omega)
        (by have e : next + 1 + (j : Int) = next + ((j + 1 : Nat) : Int) := by push_cast; ring
            rw [e]; exact hP)
        (by intro i hi
            have e : next + 1 + (i : Int) = next + ((i + 1 : Nat) : Int) := by push_cast; ring
            rw [e]; exact hmin (i + 1) (by omega))
      rw [this]; push_cast; ring

/-- Without a matching day the loop of `calculateWeekRule` runs to its end. -/
theorem weekLoop_exhausted (r : RepeatRule) (now : Int) :
    ∀ (n : Nat) (next : Int),
      (∀ i : Nat, i < n → ¬ (isoWeekday (next + i) ∈ r.DaysWeek ∧ now < next + i)) →
      weekLoop r now n next = next + n := by
  intro n
  induction n with
  | zero => intro next _; simp [weekLoop]
  | succ n ih =>
    intro next hmin
    unfold weekLoop
    simp only [weekAny_iff, AddDate_days]
    have h0 := hmin 0 (by omega)
    simp only [Nat.cast_zero, add_zero] at h0
    rw [if_neg h0]
    have := ih (next + 1)
      (by intro i hi
          have e : next + 1 + (i : Int) = next + ((i + 1 : Nat) : Int) := by push_cast; ring
          rw [e]; exact hmin (i + 1) (by omega))
    rw [this]; push_cast; ring

/-- The weekday numbering of `calculateWeekRule` is the ISO one. -/
theorem isoWeekday_eq (d : Int) : isoWeekday d = (d + 3) % 7 + 1 := by
  simp only [isoWeekday, Weekday]
  split <;> omega

/-- Every weekday occurs among the seven days after a date. -/
theorem isoWeekday_hit (c w : Int) (h1 : 1 ≤ w) (h7 : w ≤ 7) :
    ∃ j : Nat, 1 ≤ j ∧ j ≤ 7 ∧ isoWeekday (c + j) = w := by
  refine ⟨((w - c - 5) % 7).toNat + 1, by omega, by omega, ?_⟩
  rw [isoWeekday_eq]
  push_cast
  omega

/-- C2 (weekly rule): for a rule parsed from a `w <list>` string and dates `base`, `now`,
with the cursor `base` if `base` is on or after `now` and `now` otherwise,
`calculateWeekRule` returns the earliest date on or after the cursor that is strictly
after `now` and whose ISO weekday is in the list; it is at most 7 days after the cursor. -/
theorem weekly_earliest (s : String) (r : RepeatRule) (base now : Int)
    (hp : ParseRepeatRule s = .ok r) (hw : r.Type_ = "w") :
    ∃ d : Int, calculateWeekRule r now base = .ok d ∧
      (if now ≤ base then base else now) ≤ d ∧ now < d ∧ isoDayOfWeek d ∈ r.DaysWeek ∧
      (∀ d2 : Int, (if now ≤ base then base else now) ≤ d2 → now < d2 →
        isoDayOfWeek d2 ∈ r.DaysWeek → d ≤ d2) ∧
      d ≤ (if now ≤ base then base else now) + 7 := by
  obtain ⟨hne, hr⟩ := parsed_week_days s r hp hw
  generalize hc : (if now ≤ base then base else now) = cursor
  have hcn : now ≤ cursor := by rw [← hc]; split <;> omega
  have hcur : (if Before base now = true then now else base) = cursor := by
    rw [← hc]; simp only [Before, decide_eq_true_eq]
    by_cases c : base < now
    · rw [if_pos c, if_neg (by omega)]
    · rw [if_neg c, if_pos (by omega)]
  obtain ⟨w, hwm⟩ := List.exists_mem_of_ne_nil _ hne
  obtain ⟨j0, hj1, hj7, hj⟩ := isoWeekday_hit cursor w (hr w hwm).1 (hr w hwm).2
  have hex : ∃ j : Nat, j < 8 ∧ (isoWeekday (cursor + j) ∈ r.DaysWeek ∧ now < cursor + j) :=
    ⟨j0, by omega, by rw [hj]; exact hwm, by omega⟩
  classical
  have hfind := Nat.find_spec hex
  have hmin : ∀ i : Nat, i < Nat.find hex →
      ¬ (isoWeekday (cursor + i) ∈ r.DaysWeek ∧ now < cursor + i) := by
    intro i hi hP
    exact Nat.find_min hex hi ⟨by omega, hP⟩
  generalize Nat.find hex = j at hfind hmin
  have hres := weekLoop_found r now 8 cursor j hfind.1 hfind.2 hmin
  refine ⟨cursor + j, ?_, by omega, hfind.2.2, ?_, ?_, by omega⟩
  · simp only [calculateWeekRule, hcur, daysInWeek]
    exact congrArg _ hres
  · rw [isoDayOfWeek, ← isoWeekday_eq]; exact hfind.2.1
  · intro d2 h1 h2 h3
    by_contra hlt
    have e : d2 = cursor + ((d2 - cursor).toNat : Int) := by omega
    rw [isoDayOfWeek, ← isoWeekday_eq, e] at h3
    rw [e] at h2
    exact hmin (d2 - cursor).toNat (by omega) ⟨h3, h2⟩

/-- Witness for C2: `w 1,3,5` with `base = now = 20240101`, a Monday, gives 20240103. -/
theorem weekly_earliest_witness :
    isoDayOfWeek (Date 2024 1 1) = 1 ∧
    calculateWeekRule { newRule ['w'] with DaysWeek := [1, 3, 5] } (Date 2024 1 1) (Date 2024 1 1)
      = .ok (Date 2024 1 3) ∧
    ∃ d : Int, calculateWeekRule { newRule ['w'] with DaysWeek := [1, 3, 5] }
        (Date 2024 1 1) (Date 2024 1 1) = .ok d ∧
      (if Date 2024 1 1 ≤ Date 2024 1 1 then Date 2024 1 1 else Date 2024 1 1) ≤ d ∧
      Date 2024 1 1 < d ∧
      isoDayOfWeek d ∈ ({ newRule ['w'] with DaysWeek := [1, 3, 5] } : RepeatRule).DaysWeek ∧
      (∀ d2 : Int, (if Date 2024 1 1 ≤ Date 2024 1 1 then Date 2024 1 1 else Date 2024 1 1) ≤ d2 →
        Date 2024 1 1 < d2 →
        isoDayOfWeek d2 ∈ ({ newRule ['w'] with DaysWeek := [1, 3, 5] } : RepeatRule).DaysWeek →
        d ≤ d2) ∧
      d ≤ (if Date 2024 1 1 ≤ Date 2024 1 1 then Date 2024 1 1 else Date 2024 1 1) + 7 :=
  ⟨by decide, rfl,
    weekly_earliest "w 1,3,5" { newRule ['w'] with DaysWeek := [1, 3, 5] }
      (Date 2024 1 1) (Date 2024 1 1) rfl rfl⟩


/-! ## The monthly rule (C3) -/

/-- After sorting, the first element is a least element. -/
theorem sortSlice_head (l : List Int) (x : Int) (h : l ≠ []) :
    (sortSlice l).headD x ∈ l ∧ ∀ y ∈ l, (sortSlice l).headD x ≤ y := by
  have hp : (sortSlice l).Perm l := List.perm_insertionSort _ l
  have hs : (sortSlice l).Sorted (fun a b => a ≤ b) := List.sorted_insertionSort _ l
  cases hl : sortSlice l with
  | nil =>
    rw [hl] at hp
    exact absurd hp.symm.eq_nil h
  | cons a rest =>
    rw [hl] at hp hs
    simp only [List.headD_cons]
    refine ⟨hp.subset (List.mem_cons_self _ _), ?_⟩
    intro y hy
    rcases List.mem_cons.mp (hp.symm.subset hy) with rfl | hy2
    · exact le_refl _
    · exact List.rel_of_sorted_cons hs y hy2

/-- The candidates of `calculateMonthRule` in the month of `next`. -/
theorem monthCandidates_mem (r : RepeatRule) (now next L c : Int) :
    c ∈ monthCandidates r now next L ↔
      ∃ v ∈ r.MonthDays, 1 ≤ resolveDay L v ∧ resolveDay L v ≤ L ∧
        now < Date (Year next) (Month next) (resolveDay L v) ∧
        Date (Year next) (Month next) (resolveDay L v) = c := by
  simp only [monthCandidates, List.mem_filterMap]
  constructor
  · rintro ⟨v, hv, h⟩
    refine ⟨v, hv, ?_⟩
    change (if resolveDay L v < 1 ∨ resolveDay L v > L then none
      else if After (Date (Year next) (Month next) (resolveDay L v)) now = true
        then some (Date (Year next) (Month next) (resolveDay L v)) else none) = some c at h
    by_cases c1 : resolveDay L v < 1 ∨ resolveDay L v > L
    · rw [if_pos c1] at h; exact absurd h (by simp)
    · rw [if_neg c1] at h
      by_cases c2 : After (Date (Year next) (Month next) (resolveDay L v)) now = true
      · rw [if_pos c2] at h
        simp only [Option.some.injEq] at h
        simp only [After, decide_eq_true_eq] at c2
        exact ⟨by omega, by omega, c2, h⟩
      · rw [if_neg c2] at h; exact absurd h (by simp)
  · rintro ⟨v, hv, h1, h2, h3, h4⟩
    refine ⟨v, hv, ?_⟩
    change (if resolveDay L v < 1 ∨ resolveDay L v > L then none
      else if After (Date (Year next) (Month next) (resolveDay L v)) now = true
        then some (Date (Year next) (Month next) (resolveDay L v)) else none) = some c
    rw [if_neg (by omega), if_pos (by simpa [After] using h3), h4]

/-- The candidates are the dates of that month after `now` on a configured day. -/
theorem monthCandidates_iff (r : RepeatRule) (now next c : Int) :
    c ∈ monthCandidates r now next (daysIn (Month next) (Year next)) ↔
      (now < c ∧ monthIndex c = monthIndex next ∧
        ∃ v ∈ r.MonthDays, 1 ≤ resolveDay (daysIn (Month c) (Year c)) v ∧
          resolveDay (daysIn (Month c) (Year c)) v ≤ daysIn (Month c) (Year c) ∧
          Day c = resolveDay (daysIn (Month c) (Year c)) v) := by
  obtain ⟨m1, m12, _⟩ := absDate_spec next
  rw [monthCandidates_mem]
  constructor
  · rintro ⟨v, hv, h1, h2, h3, h4⟩
    obtain ⟨ey, em, ed⟩ := absDate_Date (Year next) (Month next) _ m1 m12 h1 h2
    rw [h4] at ey em ed h3
    refine ⟨h3, (monthIndex_eq_iff _ _).2 ⟨ey, em⟩, v, hv, ?_⟩
    rw [ey, em, ed]
    exact ⟨h1, h2, rfl⟩
  · rintro ⟨hn, hk, v, hv, h1, h2, hd⟩
    obtain ⟨ey, em⟩ := (monthIndex_eq_iff _ _).1 hk
    rw [ey, em] at h1 h2 hd
    have e : Date (Year next) (Month next)
        (resolveDay (daysIn (Month next) (Year next)) v) = c := by
      have := Date_absDate c
      rw [ey, em, hd] at this
      exact this
    exact ⟨v, hv, h1, h2, by rw [e]; exact hn, e⟩

/-- Invariant of the loop of `calculateMonthRule`: no matching date lies in a month before
the month of `next`; the date returned is the least matching date. -/
theorem monthLoop_spec (r : RepeatRule) (now cursor : Int) :
    ∀ (n : Nat) (next d : Int), monthLoop r now n next = .ok d →
      monthIndex cursor ≤ monthIndex next →
      (∀ d2, MonthlyMatch r now cursor d2 → monthIndex next ≤ monthIndex d2) →
      MonthlyMatch r now cursor d ∧ ∀ d2, MonthlyMatch r now cursor d2 → d ≤ d2 := by
  intro n
  induction n with
  | zero => intro next d h; simp [monthLoop] at h
  | succ n ih =>
    intro next d h hk hinv
    unfold monthLoop at h
    simp only [lastDay_eq, next_month_first, AddDate_days] at h
    by_cases c : r.Months.length > 0 ∧ ¬ Month next ∈ r.Months
    · rw [if_pos c] at h
      refine ih _ d h (by rw [monthIndex_monthStart]; omega) ?_
      intro d2 hm
      rw [monthIndex_monthStart]
      have h1 := hinv d2 hm
      rcases eq_or_lt_of_le h1 with e | l
      · exfalso
        obtain ⟨_, em⟩ := (monthIndex_eq_iff _ _).1 e
        rcases hm.2.2.1 with hnil | hmem
        · rw [hnil] at c; simp at c
        · rw [← em] at hmem; exact c.2 hmem
      · omega
    · rw [if_neg c] at h
      by_cases c2 : (monthCandidates r now next (daysIn (Month next) (Year next))).length > 0
      · rw [if_pos c2] at h
        simp only [Except.ok.injEq] at h
        have hne : monthCandidates r now next (daysIn (Month next) (Year next)) ≠ [] := by
          intro e; rw [e] at c2; simp at c2
        obtain ⟨hmem, hmin⟩ := sortSlice_head _ next hne
        rw [h] at hmem hmin
        obtain ⟨hn, hki, hday⟩ := (monthCandidates_iff r now next d).1 hmem
        obtain ⟨_, em⟩ := (monthIndex_eq_iff _ _).1 hki
        refine ⟨⟨hn, by omega, ?_, hday⟩, ?_⟩
        · by_cases cn : r.Months = []
          · exact Or.inl cn
          · right
            rw [em]
            by_contra hx
            exact c ⟨List.length_pos.mpr cn, hx⟩
        · intro d2 hm
          have h1 := hinv d2 hm
          rcases eq_or_lt_of_le h1 with e | l
          · exact hmin d2 ((monthCandidates_iff r now next d2).2 ⟨hm.1, e.symm, hm.2.2.2⟩)
          · have s1 := month_span d
            have s2 := month_span d2
            have := monthStart_le (show monthIndex d + 1 ≤ monthIndex d2 by omega)
            omega
      · rw [if_neg c2] at h
        have hnil : monthCandidates r now next (daysIn (Month next) (Year next)) = [] := by
          apply List.eq_nil_of_length_eq_zero; omega
        refine ih _ d h (le_trans hk (monthIndex_mono (by omega))) ?_
        intro d2 hm
        have h1 := hinv d2 hm
        rcases eq_or_lt_of_le h1 with e | l
        · exfalso
          have := (monthCandidates_iff r now next d2).2 ⟨hm.1, e.symm, hm.2.2.2⟩
          rw [hnil] at this
          simp at this
        · have := monthIndex_succ_le next
          omega

/-- The only error of the loop of `calculateMonthRule` is the exhausted bound. -/
theorem monthLoop_error (r : RepeatRule) (now : Int) : ∀ (n : Nat) (next : Int) (e : Err),
    monthLoop r now n next = .error e → e = .noMatchingDate := by
  intro n
  induction n with
  | zero => intro next e h; simp only [monthLoop, Except.error.injEq] at h; exact h.symm
  | succ n ih =>
    intro next e h
    unfold monthLoop at h
    simp only at h
    split at h
    · exact ih _ _ h
    · split at h
      · exact absurd h (by simp)
      · exact ih _ _ h

/-- C3 (monthly rule): whenever `calculateMonthRule` returns a date, it is the earliest
date that is strictly after `now`, lies in the month of the cursor (`base` if `base` is on
or after `now`, else `now`) or a later month, has its month in the rule's month set (or the
set is empty), and has as day of the month a configured day value, negative values being
resolved against the last day of that month and values outside the month being dropped. -/
theorem monthly_earliest (r : RepeatRule) (base now d : Int)
    (h : calculateMonthRule r now base = .ok d) :
    MonthlyMatch r now (if now ≤ base then base else now) d ∧
      ∀ d2 : Int, MonthlyMatch r now (if now ≤ base then base else now) d2 → d ≤ d2 := by
  have hcur : (if Before base now = true then now else base) =
      (if now ≤ base then base else now) := by
    simp only [Before, decide_eq_true_eq]
    by_cases c : base < now
    · rw [if_pos c, if_neg (by omega)]
    · rw [if_neg c, if_pos (by omega)]
  simp only [calculateMonthRule, hcur] at h
  exact monthLoop_spec r now _ _ _ d h (le_refl _) (fun d2 hm => hm.2.1)

/-- Witness for C3: `m -1` with `now = 20240115` and `base = 20240101` gives 20240131. -/
theorem monthly_earliest_witness :
    calculateMonthRule { newRule ['m'] with MonthDays := [-1] } (Date 2024 1 15) (Date 2024 1 1)
      = .ok (Date 2024 1 31) ∧
    MonthlyMatch { newRule ['m'] with MonthDays := [-1] } (Date 2024 1 15)
      (if Date 2024 1 15 ≤ Date 2024 1 1 then Date 2024 1 1 else Date 2024 1 15)
      (Date 2024 1 31) ∧
    ∀ d2 : Int, MonthlyMatch { newRule ['m'] with MonthDays := [-1] } (Date 2024 1 15)
      (if Date 2024 1 15 ≤ Date 2024 1 1 then Date 2024 1 1 else Date 2024 1 15) d2 →
      Date 2024 1 31 ≤ d2 :=
  ⟨rfl, monthly_earliest { newRule ['m'] with MonthDays := [-1] } (Date 2024 1 1) (Date 2024 1 15)
    (Date 2024 1 31) rfl⟩


/-! ## The yearly rule (C4, C5) -/

/-- One year step from a date that is not February 29 keeps month and day. -/
theorem yearStep_fixed (y m d : Int) (h1 : 1 ≤ m) (h12 : m ≤ 12) (hd1 : 1 ≤ d)
    (hd : d ≤ daysIn m y) (hn : ¬ (m = 2 ∧ d = 29)) :
    yearStep (Date y m d) = Date (y + 1) m d ∧ AddDate (Date y m d) 1 0 0 = Date (y + 1) m d := by
  obtain ⟨ey, em, ed⟩ := absDate_Date y m d h1 h12 hd1 hd
  have ha : AddDate (Date y m d) 1 0 0 = Date (y + 1) m d := by
    simp only [AddDate, ey, em, ed, add_zero]
  refine ⟨?_, ha⟩
  simp only [yearStep, ha, em, ed]
  rw [if_neg (fun c => hn ⟨c.1, c.2.1⟩)]

/-- From a date that is not February 29 the loop of `calculateYearRule` stops at the
first year in which that month and day are after `now`. -/
theorem yearLoop_fixed (now y m d : Int) (h1 : 1 ≤ m) (h12 : m ≤ 12) (hd1 : 1 ≤ d)
    (hd : d ≤ daysIn m y) (hn : ¬ (m = 2 ∧ d = 29)) :
    ∀ (fuel : Nat) (i : Nat), now - Date (y + i) m d < fuel →
      ∃ k : Nat, i ≤ k ∧ yearLoop now fuel (Date (y + i) m d) = some (Date (y + k) m d) ∧
        now < Date (y + k) m d ∧ ∀ j : Nat, i ≤ j → j < k → Date (y + j) m d ≤ now := by
  intro fuel
  induction fuel with
  | zero =>
    intro i h
    refine ⟨i, le_refl _, ?_, by simp at h; omega, fun j h1 h2 => by omega⟩
    have : now < Date (y + i) m d := by simp at h; omega
    simp [yearLoop, After, this]
  | succ n ih =>
    intro i h
    by_cases c : now < Date (y + i) m d
    · exact ⟨i, le_refl _, by simp [yearLoop, After, c], c, fun j h1 h2 => by omega⟩
    · have hs := (yearStep_fixed (y + i) m d h1 h12 hd1 (fixedDay_valid m d y _ hd hn) hn).1
      have hy := (Date_year_succ (y + i) m d h1 h12).1
      have e : y + (i : Int) + 1 = y + ((i + 1 : Nat) : Int) := by push_cast; ring
      rw [e] at hs hy
      obtain ⟨k, hk, hl, hk2, hk3⟩ := ih (i + 1) (by omega)
      refine ⟨k, by omega, ?_, hk2, ?_⟩
      · simp only [yearLoop, After, c, decide_False, if_false, hs]
        simpa using hl
      · intro j hj1 hj2
        rcases Nat.eq_or_lt_of_le hj1 with e2 | l
        · rw [← e2]; omega
        · exact hk3 j l hj2

/-- One year after February 29 is March 1. -/
theorem leapDay_next (Y : Int) (hY : isLeap Y = true) :
    AddDate (Date Y 2 29) 1 0 0 = Date (Y + 1) 3 1 ∧ yearStep (Date Y 2 29) = Date (Y + 1) 3 1 ∧
      Year (Date (Y + 1) 3 1) = Y + 1 ∧ Month (Date (Y + 1) 3 1) = 3 ∧
      Day (Date (Y + 1) 3 1) = 1 ∧ Date Y 2 29 < Date (Y + 1) 3 1 := by
  have hv : (29 : Int) ≤ daysIn 2 Y := by rw [daysIn_feb, if_pos hY]
  obtain ⟨ey, em, ed⟩ := absDate_Date Y 2 29 (by norm_num) (by norm_num) (by norm_num) hv
  have hb := daysIn_bounds (Y + 1) 3 (by norm_num) (by norm_num)
  obtain ⟨fy, fm, fd⟩ := absDate_Date (Y + 1) 3 1 (by norm_num) (by norm_num) (by norm_num)
    (by omega)
  have hnl := leap_succ_not_leap Y hY
  have e : Date (Y + 1) 2 29 = Date (Y + 1) 3 1 := by
    rw [Date_of_month _ _ _ (by norm_num) (by norm_num),
      Date_of_month _ _ _ (by norm_num) (by norm_num)]
    obtain ⟨_, o2, o3, _⟩ := monthOffset_table (isLeap (Y + 1))
    rw [o2, o3, hnl]
    simp only [Bool.false_eq_true, if_false]
    omega
  have ha : AddDate (Date Y 2 29) 1 0 0 = Date (Y + 1) 3 1 := by
    simp only [AddDate, ey, em, ed, add_zero, e]
  refine ⟨ha, ?_, fy, fm, fd, ?_⟩
  · simp only [yearStep, ha, em, ed, fm, fy]
    simp
  · have := (Date_year_succ Y 2 29 (by norm_num) (by norm_num)).1
    rw [e] at this
    omega

/-- Every year step advances by at least 365 days. -/
theorem yearStep_advance (t : Int) : t + 365 ≤ yearStep t := by
  obtain ⟨h1, h12, hd1, _⟩ := absDate_spec t
  have hd := Day_le_daysIn t
  have hb := Date_absDate t
  by_cases c : Month t = 2 ∧ Day t = 29
  · have hleap : isLeap (Year t) = true := by
      by_contra hl
      rw [c.1, daysIn_feb, if_neg hl] at hd
      omega
    obtain ⟨_, hs, _, _, _, hlt⟩ := leapDay_next (Year t) hleap
    rw [c.1, c.2] at hb
    rw [hb] at hs
    rw [hs]
    have h365 := (Date_year_succ (Year t) 2 29 (by norm_num) (by norm_num)).1
    have hnl := leap_succ_not_leap (Year t) hleap
    have e : Date (Year t + 1) 2 29 = Date (Year t + 1) 3 1 := by
      rw [Date_of_month _ _ _ (by norm_num) (by norm_num),
        Date_of_month _ _ _ (by norm_num) (by norm_num)]
      obtain ⟨_, o2, o3, _⟩ := monthOffset_table (isLeap (Year t + 1))
      rw [o2, o3, hnl]
      simp only [Bool.false_eq_true, if_false]
      omega
    omega
  · have hs := (yearStep_fixed (Year t) (Month t) (Day t) h1 h12 hd1 hd c).1
    have := (Date_year_succ (Year t) (Month t) (Day t) h1 h12).1
    rw [hb] at hs this
    omega

/-- With fuel `now - t + 1` the loop of `calculateYearRule` returns. -/
theorem yearLoop_total (now : Int) : ∀ (fuel : Nat) (t : Int), now - t < fuel →
    ∃ d, yearLoop now fuel t = some d ∧ now < d := by
  intro fuel
  induction fuel with
  | zero =>
    intro t h
    have : now < t := by simp at h; omega
    exact ⟨t, by simp [yearLoop, After, this], this⟩
  | succ n ih =>
    intro t h
    by_cases c : now < t
    · exact ⟨t, by simp [yearLoop, After, c], c⟩
    · have := yearStep_advance t
      obtain ⟨d, hd, hlt⟩ := ih (yearStep t) (by omega)
      exact ⟨d, by simp only [yearLoop, After, c, decide_False, if_false]; simpa using hd, hlt⟩

/-- The method `calculateYearRule` always returns a date. -/
theorem calculateYearRule_ok (r : RepeatRule) (now base : Int) :
    ∃ d, calculateYearRule r now base = .ok d := by
  by_cases c : After base now = true ∨ Equal base now = true
  · exact ⟨AddDate base 1 0 0, by simp only [calculateYearRule, if_pos c]⟩
  · obtain ⟨d, hd, _⟩ := yearLoop_total now ((now - base).toNat + 1) base (by omega)
    exact ⟨d, by simp only [calculateYearRule, if_neg c, hd]⟩

/-- C4 (yearly rule): for dates `base`, `now` with `base` not a February 29,
`calculateYearRule` returns `base` moved `k` whole years ahead, to the same month and day,
where `k` is the least positive number of years that brings it strictly after `now`;
`k = 1` whenever `base` is on or after `now`. -/
theorem yearly_same_day (r : RepeatRule) (base now : Int)
    (hn : ¬ (Month base = 2 ∧ Day base = 29)) :
    ∃ k : Nat, 1 ≤ k ∧
      calculateYearRule r now base = .ok (Date (Year base + k) (Month base) (Day base)) ∧
      Year (Date (Year base + k) (Month base) (Day base)) = Year base + k ∧
      Month (Date (Year base + k) (Month base) (Day base)) = Month base ∧
      Day (Date (Year base + k) (Month base) (Day base)) = Day base ∧
      now < Date (Year base + k) (Month base) (Day base) ∧
      (∀ j : Nat, 1 ≤ j → now < Date (Year base + j) (Month base) (Day base) → k ≤ j) ∧
      (now ≤ base → k = 1) := by
  obtain ⟨h1, h12, hd1, _⟩ := absDate_spec base
  have hd := Day_le_daysIn base
  have hb := Date_absDate base
  have hvalid : ∀ k : Nat, Year (Date (Year base + k) (Month base) (Day base)) = Year base + k ∧
      Month (Date (Year base + k) (Month base) (Day base)) = Month base ∧
      Day (Date (Year base + k) (Month base) (Day base)) = Day base := fun k =>
    absDate_Date _ _ _ h1 h12 hd1 (fixedDay_valid _ _ _ _ hd hn)
  by_cases c : now ≤ base
  · have hs := (yearStep_fixed (Year base) (Month base) (Day base) h1 h12 hd1 hd hn).2
    have hy := (Date_year_succ (Year base) (Month base) (Day base) h1 h12).1
    rw [hb] at hs hy
    refine ⟨1, le_refl _, ?_, (hvalid 1).1, (hvalid 1).2.1, (hvalid 1).2.2, ?_, fun j hj _ => hj,
      fun _ => rfl⟩
    · have hc : After base now = true ∨ Equal base now = true := by
        simp only [After, Equal, decide_eq_true_eq]; omega
      simp only [calculateYearRule, if_pos hc, hs, Nat.cast_one]
    · simp only [Nat.cast_one]; omega
  · obtain ⟨k, _, hl, hk2, hk3⟩ := yearLoop_fixed now (Year base) (Month base) (Day base)
      h1 h12 hd1 hd hn ((now - base).toNat + 1) 0 (by simp only [Nat.cast_zero, add_zero, hb]; omega)
    simp only [Nat.cast_zero, add_zero, hb] at hl
    have hk1 : 1 ≤ k := by
      by_contra hk
      have : k = 0 := by omega
      subst this
      simp only [Nat.cast_zero, add_zero, hb] at hk2
      omega
    refine ⟨k, hk1, ?_, (hvalid k).1, (hvalid k).2.1, (hvalid k).2.2, hk2, ?_, fun h => absurd h c⟩
    · have hc : ¬ (After base now = true ∨ Equal base now = true) := by
        simp only [After, Equal, decide_eq_true_eq]; omega
      simp only [calculateYearRule, if_neg hc, hl]
    · intro j _ hj2
      by_contra hlt
      have := hk3 j (Nat.zero_le _) (by omega)
      omega

/-- Witness for C4: `base = 20230101`, `now = 20240101` gives 20250101 (`k = 2`). -/
theorem yearly_same_day_witness :
    calculateYearRule (newRule ['y']) (Date 2024 1 1) (Date 2023 1 1) = .ok (Date 2025 1 1) ∧
    ∃ k : Nat, 1 ≤ k ∧
      calculateYearRule (newRule ['y']) (Date 2024 1 1) (Date 2023 1 1) =
        .ok (Date (Year (Date 2023 1 1) + k) (Month (Date 2023 1 1)) (Day (Date 2023 1 1))) ∧
      Year (Date (Year (Date 2023 1 1) + k) (Month (Date 2023 1 1)) (Day (Date 2023 1 1))) =
        Year (Date 2023 1 1) + k ∧
      Month (Date (Year (Date 2023 1 1) + k) (Month (Date 2023 1 1)) (Day (Date 2023 1 1))) =
        Month (Date 2023 1 1) ∧
      Day (Date (Year (Date 2023 1 1) + k) (Month (Date 2023 1 1)) (Day (Date 2023 1 1))) =
        Day (Date 2023 1 1) ∧
      Date 2024 1 1 <
        Date (Year (Date 2023 1 1) + k) (Month (Date 2023 1 1)) (Day (Date 2023 1 1)) ∧
      (∀ j : Nat, 1 ≤ j → Date 2024 1 1 <
        Date (Year (Date 2023 1 1) + j) (Month (Date 2023 1 1)) (Day (Date 2023 1 1)) → k ≤ j) ∧
      (Date 2024 1 1 ≤ Date 2023 1 1 → k = 1) :=
  ⟨rfl, yearly_same_day (newRule ['y']) (Date 2023 1 1) (Date 2024 1 1) (by decide)⟩

/-- C5 (leap-day rule): for a leap year `Y`, `base` = February 29 of `Y` and any `now`
before March 1 of `Y + 1`, the yearly result is exactly March 1 of `Y + 1`. -/
theorem yearly_leap_day (r : RepeatRule) (Y now : Int) (hY : isLeap Y = true)
    (h : now < Date (Y + 1) 3 1) :
    calculateYearRule r now (Date Y 2 29) = .ok (Date (Y + 1) 3 1) ∧
      Year (Date (Y + 1) 3 1) = Y + 1 ∧ Month (Date (Y + 1) 3 1) = 3 ∧
      Day (Date (Y + 1) 3 1) = 1 := by
  obtain ⟨ha, hs, fy, fm, fd, hlt⟩ := leapDay_next Y hY
  refine ⟨?_, fy, fm, fd⟩
  by_cases c : now ≤ Date Y 2 29
  · have hc : After (Date Y 2 29) now = true ∨ Equal (Date Y 2 29) now = true := by
      simp only [After, Equal, decide_eq_true_eq]; omega
    simp only [calculateYearRule, if_pos hc, ha]
  · have hc : ¬ (After (Date Y 2 29) now = true ∨ Equal (Date Y 2 29) now = true) := by
      simp only [After, Equal, decide_eq_true_eq]; omega
    have hA : After (Date Y 2 29) now = false := by
      simp only [After, decide_eq_false_iff_not]; omega
    have hB : After (Date (Y + 1) 3 1) now = true := by
      simp only [After, decide_eq_true_eq]; exact h
    simp only [calculateYearRule, if_neg hc]
    have hl : ∀ n : Nat, yearLoop now (n + 1) (Date Y 2 29) = some (Date (Y + 1) 3 1) := by
      intro n
      simp only [yearLoop, hA, hs, Bool.false_eq_true, if_false]
      cases n <;> simp [yearLoop, hB]
    rw [hl]

/-- Witness for C5: `base = 20240229` (with `now = 20240301`) gives 20250301. -/
theorem yearly_leap_day_witness :
    calculateYearRule (newRule ['y']) (Date 2024 3 1) (Date 2024 2 29) = .ok (Date (2024 + 1) 3 1) ∧
      Year (Date (2024 + 1) 3 1) = 2024 + 1 ∧ Month (Date (2024 + 1) 3 1) = 3 ∧
      Day (Date (2024 + 1) 3 1) = 1 :=
  yearly_leap_day (newRule ['y']) 2024 (Date 2024 3 1) (by decide) (by decide)


/-! ## The parser (C7, C8, C9) -/

/-- C7 (monthly parse invariant), evaluated where it fails: the rule strings `m 0` and
`m 1,0` are accepted, with the day value 0 stored in `MonthDays`, although the error text
of `parseMonthRule` names `1..31` and `-1, -2` as the only valid day values. -/
theorem monthly_zero_day_accepted :
    ParseRepeatRule "m 0" = .ok { newRule ['m'] with MonthDays := [0] } ∧
    ParseRepeatRule "m 1,0" = .ok { newRule ['m'] with MonthDays := [1, 0] } :=
  ⟨rfl, rfl⟩

/-- C8 (parser rejection): every rule string of a rejected shape makes `ParseRepeatRule`
return an error, and with it no rule. -/
theorem parser_rejects (s : String) (h : RejectedShape s) :
    ∃ e, ParseRepeatRule s = .error e := by
  cases hp : ParseRepeatRule s with
  | error e => exact ⟨e, rfl⟩
  | ok r =>
    exfalso
    obtain ⟨p0, rest, hf, ht, hc⟩ := ParseRepeatRule_ok s r hp
    rcases h with ⟨tok, hs, hbad⟩ | ⟨tok, rest2, hs⟩ | hs | ⟨tok, piece, v, hs, hmem, hv, hbad⟩ |
      ⟨tok, rest2, piece, v, hs, hmem, hv, hbad⟩ | ⟨tok, tok2, piece, v, hs, hmem, hv, hbad⟩
    · rw [hs] at hf
      obtain ⟨rfl, rfl⟩ := List.cons.inj hf
      have htd : r.Type_ = "d" := ht
      rcases hc with ⟨_, h⟩ | ⟨hy, _⟩ | ⟨hw, _⟩ | ⟨hm, _⟩
      · obtain ⟨q0, q1, N, e, ha, h1, h2, _⟩ := parseDayRule_ok _ _ _ h
        obtain ⟨_, e2⟩ := List.cons.inj e
        obtain ⟨rfl, _⟩ := List.cons.inj e2
        rcases hbad with hn | ⟨M, hM, hr⟩
        · rw [hn] at ha; exact absurd ha (by simp)
        · rw [hM] at ha
          obtain rfl := Option.some.inj ha
          omega
      · exact type_ne (by decide) htd hy
      · exact type_ne (by decide) htd hw
      · exact type_ne (by decide) htd hm
    · rw [hs] at hf
      obtain ⟨rfl, rfl⟩ := List.cons.inj hf
      have hty : r.Type_ = "y" := ht
      rcases hc with ⟨hd, _⟩ | ⟨_, hnil, _⟩ | ⟨hw, _⟩ | ⟨hm, _⟩
      · exact type_ne (by decide) hty hd
      · exact absurd hnil (by simp)
      · exact type_ne (by decide) hty hw
      · exact type_ne (by decide) hty hm
    · rw [hs] at hf
      obtain ⟨rfl, rfl⟩ := List.cons.inj hf
      have htw : r.Type_ = "w" := ht
      rcases hc with ⟨hd, _⟩ | ⟨hy, _⟩ | ⟨_, h⟩ | ⟨hm, _⟩
      · exact type_ne (by decide) htw hd
      · exact type_ne (by decide) htw hy
      · obtain ⟨q0, q1, ds, e, _⟩ := parseWeekRule_ok _ _ _ h
        exact absurd e (by simp)
      · exact type_ne (by decide) htw hm
    · rw [hs] at hf
      obtain ⟨rfl, rfl⟩ := List.cons.inj hf
      have htw : r.Type_ = "w" := ht
      rcases hc with ⟨hd, _⟩ | ⟨hy, _⟩ | ⟨_, h⟩ | ⟨hm, _⟩
      · exact type_ne (by decide) htw hd
      · exact type_ne (by decide) htw hy
      · obtain ⟨q0, q1, ds, e, hds, _⟩ := parseWeekRule_ok _ _ _ h
        obtain ⟨_, e2⟩ := List.cons.inj e
        obtain ⟨rfl, _⟩ := List.cons.inj e2
        obtain ⟨new, _, _, hf2⟩ := parseWeekDays_ok _ _ _ hds
        obtain ⟨x, _, hx, h1, h7⟩ := forall₂_mem_left hf2 piece hmem
        rw [hv] at hx
        obtain rfl := Option.some.inj hx
        omega
      · exact type_ne (by decide) htw hm
    · rw [hs] at hf
      obtain ⟨rfl, rfl⟩ := List.cons.inj hf
      have htm : r.Type_ = "m" := ht
      rcases hc with ⟨hd, _⟩ | ⟨hy, _⟩ | ⟨hw, _⟩ | ⟨_, h⟩
      · exact type_ne (by decide) htm hd
      · exact type_ne (by decide) htm hy
      · exact type_ne (by decide) htm hw
      · obtain ⟨q0, q1, ds, hds, hparts⟩ := parseMonthRule_ok _ _ _ h
        have hq : q1 = tok := by
          rcases hparts with ⟨e, _⟩ | ⟨_, _, e, _⟩
          · obtain ⟨_, e2⟩ := List.cons.inj e
            exact (List.cons.inj e2).1.symm
          · obtain ⟨_, e2⟩ := List.cons.inj e
            exact (List.cons.inj e2).1.symm
        subst hq
        obtain ⟨new, _, hf2⟩ := parseMonthDays_ok _ _ _ hds
        obtain ⟨x, _, hx, h1, h7⟩ := forall₂_mem_left hf2 piece hmem
        rw [hv] at hx
        obtain rfl := Option.some.inj hx
        omega
    · rw [hs] at hf
      obtain ⟨rfl, rfl⟩ := List.cons.inj hf
      have htm : r.Type_ = "m" := ht
      rcases hc with ⟨hd, _⟩ | ⟨hy, _⟩ | ⟨hw, _⟩ | ⟨_, h⟩
      · exact type_ne (by decide) htm hd
      · exact type_ne (by decide) htm hy
      · exact type_ne (by decide) htm hw
      · obtain ⟨q0, q1, ds, hds, ⟨e, _⟩ | ⟨q2, ms, e, hms, _⟩⟩ := parseMonthRule_ok _ _ _ h
        · exact absurd e (by simp)
        · obtain ⟨_, e2⟩ := List.cons.inj e
          obtain ⟨_, e3⟩ := List.cons.inj e2
          obtain ⟨rfl, _⟩ := List.cons.inj e3
          obtain ⟨new, _, hf2⟩ := parseMonths_ok _ _ _ hms
          obtain ⟨x, _, hx, h1, h7⟩ := forall₂_mem_left hf2 piece hmem
          rw [hv] at hx
          obtain rfl := Option.some.inj hx
          omega

/-- Witness for C8: the nine rule strings of the specification are of a rejected shape
and are rejected. -/
theorem parser_rejects_witness :
    (ParseRepeatRule "d 0" = .error .dayRange ∧ ParseRepeatRule "d 401" = .error .dayRange ∧
      ParseRepeatRule "d abc" = .error .dayNumber ∧
      ParseRepeatRule "y extra" = .error .yearParams ∧
      ParseRepeatRule "w" = .error .weekCount ∧ ParseRepeatRule "w 8" = .error .weekRange ∧
      ParseRepeatRule "m 32" = .error .monthDayHigh ∧
      ParseRepeatRule "m -3" = .error .monthDayLow ∧
      ParseRepeatRule "m 1 13" = .error .monthRange) ∧
    (∃ e, ParseRepeatRule "d 0" = .error e) ∧ (∃ e, ParseRepeatRule "d 401" = .error e) ∧
    (∃ e, ParseRepeatRule "d abc" = .error e) ∧ (∃ e, ParseRepeatRule "y extra" = .error e) ∧
    (∃ e, ParseRepeatRule "w" = .error e) ∧ (∃ e, ParseRepeatRule "w 8" = .error e) ∧
    (∃ e, ParseRepeatRule "m 32" = .error e) ∧ (∃ e, ParseRepeatRule "m -3" = .error e) ∧
    (∃ e, ParseRepeatRule "m 1 13" = .error e) :=
  ⟨⟨rfl, rfl, rfl, rfl, rfl, rfl, rfl, rfl, rfl⟩,
    parser_rejects "d 0" (Or.inl ⟨['0'], rfl, Or.inr ⟨0, rfl, Or.inl (le_refl _)⟩⟩),
    parser_rejects "d 401"
      (Or.inl ⟨['4', '0', '1'], rfl, Or.inr ⟨401, rfl, Or.inr (by decide)⟩⟩),
    parser_rejects "d abc" (Or.inl ⟨['a', 'b', 'c'], rfl, Or.inl rfl⟩),
    parser_rejects "y extra" (Or.inr (Or.inl ⟨['e', 'x', 't', 'r', 'a'], [], rfl⟩)),
    parser_rejects "w" (Or.inr (Or.inr (Or.inl rfl))),
    parser_rejects "w 8"
      (Or.inr (Or.inr (Or.inr (Or.inl ⟨['8'], ['8'], 8, rfl, by decide, rfl, Or.inr (by decide)⟩)))),
    parser_rejects "m 32" (Or.inr (Or.inr (Or.inr (Or.inr (Or.inl
      ⟨['3', '2'], [], ['3', '2'], 32, rfl, by decide, rfl, Or.inl (by decide)⟩))))),
    parser_rejects "m -3" (Or.inr (Or.inr (Or.inr (Or.inr (Or.inl
      ⟨['-', '3'], [], ['-', '3'], -3, rfl, by decide, rfl, Or.inr (by decide)⟩))))),
    parser_rejects "m 1 13" (Or.inr (Or.inr (Or.inr (Or.inr (Or.inr
      ⟨['1'], ['1', '3'], ['1', '3'], 13, rfl, by decide, rfl, Or.inr (by decide)⟩)))))⟩

/-- C9 (interval parse characterisation): for a rule string whose first token is `d`,
`ParseRepeatRule` succeeds exactly when there is one further token and `strconv.Atoi`
reads it as an integer `N` with `1 ≤ N ≤ 400`; the rule returned then has `Type` `d`,
`Days = N` and no other field set. -/
theorem interval_parse_iff (s : String) (rest : List (List Char))
    (hf : Fields s.data = ['d'] :: rest) (r : RepeatRule) :
    ParseRepeatRule s = .ok r ↔
      ∃ tok N, rest = [tok] ∧ Atoi tok = some N ∧ 1 ≤ N ∧ N ≤ 400 ∧
        r = { Type_ := "d", Days := N, DaysWeek := [], MonthDays := [], Months := [] } := by
  constructor
  · intro hp
    obtain ⟨p0, rest2, hf2, ht, hc⟩ := ParseRepeatRule_ok s r hp
    rw [hf] at hf2
    obtain ⟨rfl, rfl⟩ := List.cons.inj hf2
    have htd : r.Type_ = "d" := ht
    rcases hc with ⟨_, h⟩ | ⟨hy, _⟩ | ⟨hw, _⟩ | ⟨hm, _⟩
    · obtain ⟨q0, q1, N, e, ha, h1, h2, er⟩ := parseDayRule_ok _ _ _ h
      obtain ⟨_, e2⟩ := List.cons.inj e
      exact ⟨q1, N, e2, ha, h1, h2, er⟩
    · exact (type_ne (by decide) htd hy).elim
    · exact (type_ne (by decide) htd hw).elim
    · exact (type_ne (by decide) htd hm).elim
  · rintro ⟨tok, N, rfl, ha, h1, h2, rfl⟩
    have hc : ¬ (N ≤ 0 ∨ N > maxDaysInterval) := by simp only [maxDaysInterval]; omega
    simp only [ParseRepeatRule, hf]
    rw [if_pos (by decide)]
    simp only [parseDayRule, ha, if_neg hc]
    rfl

/-- Witness for C9: the rule string `d 7`. -/
theorem interval_parse_iff_witness :
    ParseRepeatRule "d 7" =
        .ok { Type_ := "d", Days := 7, DaysWeek := [], MonthDays := [], Months := [] } ↔
      ∃ tok N, [['7']] = [tok] ∧ Atoi tok = some N ∧ 1 ≤ N ∧ N ≤ 400 ∧
        ({ Type_ := "d", Days := 7, DaysWeek := [], MonthDays := [], Months := [] } : RepeatRule) =
          { Type_ := "d", Days := N, DaysWeek := [], MonthDays := [], Months := [] } :=
  interval_parse_iff "d 7" [['7']] rfl _


/-! ## `NextDate` (C10) -/

/-- For a parsed rule the calculator returns a date or the exhausted-bound error. -/
theorem calculateNextDate_parsed (s : String) (r : RepeatRule) (now base : Int)
    (hp : ParseRepeatRule s = .ok r) :
    (∃ d, calculateNextDate r now base = .ok d) ∨
      calculateNextDate r now base = .error .noMatchingDate := by
  obtain ⟨p0, rest, hf, ht, hc⟩ := ParseRepeatRule_ok s r hp
  rcases hc with ⟨hd, h⟩ | ⟨hy, _⟩ | ⟨hw, _⟩ | ⟨hm, _⟩
  · obtain ⟨_, _, N, _, _, h1, _, e⟩ := parseDayRule_ok _ _ _ h
    have : 1 ≤ r.Days := by rw [e]; exact h1
    left
    simp only [calculateNextDate, if_pos hd]
    exact calculateDayRule_ok r now base this
  · left
    have h1 : ¬ r.Type_ = "d" := fun h => type_ne (by decide) hy h
    simp only [calculateNextDate, if_neg h1, if_pos hy]
    exact calculateYearRule_ok r now base
  · left
    have h1 : ¬ r.Type_ = "d" := fun h => type_ne (by decide) hw h
    have h2 : ¬ r.Type_ = "y" := fun h => type_ne (by decide) hw h
    simp only [calculateNextDate, if_neg h1, if_neg h2, if_pos hw]
    exact ⟨_, rfl⟩
  · have h1 : ¬ r.Type_ = "d" := fun h => type_ne (by decide) hm h
    have h2 : ¬ r.Type_ = "y" := fun h => type_ne (by decide) hm h
    have h3 : ¬ r.Type_ = "w" := fun h => type_ne (by decide) hm h
    simp only [calculateNextDate, if_neg h1, if_neg h2, if_neg h3, if_pos hm]
    cases hr : calculateMonthRule r now base with
    | ok d => exact Or.inl ⟨d, rfl⟩
    | error e =>
      right
      rw [calculateMonthRule] at hr
      rw [monthLoop_error r now _ _ e hr]

/-- C10 (failure conditions of `NextDate`): `NextDate` returns an error exactly when
`date` is not a valid 8-character `YYYYMMDD` calendar date, or `repeat` is empty, or
`ParseRepeatRule` fails on it, or the calculator of the parsed rule exhausts its search
bound; in every other case it returns the date of the calculator in the `YYYYMMDD`
layout, which for a year in `0..9999` is an 8-digit calendar date string that parses back
to that date. -/
theorem nextDate_failure_iff (now : Int) (date rule : String) :
    ((∃ e, NextDate now date rule = .error e) ↔
      (¬ IsCalendarDateString date ∨ rule = "" ∨ (∃ e, ParseRepeatRule rule = .error e) ∨
        ∃ r base, ParseRepeatRule rule = .ok r ∧ ParseDate date = .ok base ∧
          calculateNextDate r now base = .error .noMatchingDate)) ∧
    ((∃ e, NextDate now date rule = .error e) ∨
      ∃ r base d, ParseRepeatRule rule = .ok r ∧ ParseDate date = .ok base ∧
        calculateNextDate r now base = .ok d ∧ NextDate now date rule = .ok (FormatDate d) ∧
        (0 ≤ Year d → Year d ≤ 9999 →
          IsCalendarDateString (FormatDate d) ∧ ParseDate (FormatDate d) = .ok d)) := by
  by_cases hv : ValidateDate date = .ok ()
  · have hvalid := (ValidateDate_iff date).1 hv
    obtain ⟨base, hb⟩ := ValidateDate_ParseDate date hv
    by_cases he : rule = ""
    · have hN : NextDate now date rule = .error .emptyRepeat := by
        simp only [NextDate, hv, he, if_true]
      exact ⟨⟨fun _ => Or.inr (Or.inl he), fun _ => ⟨_, hN⟩⟩, Or.inl ⟨_, hN⟩⟩
    · cases hp : ParseRepeatRule rule with
      | error e =>
        have hN : NextDate now date rule = .error e := by
          simp only [NextDate, hv, he, if_false, hb, hp]
        exact ⟨⟨fun _ => Or.inr (Or.inr (Or.inl ⟨e, rfl⟩)), fun _ => ⟨_, hN⟩⟩,
          Or.inl ⟨_, hN⟩⟩
      | ok r =>
        rcases calculateNextDate_parsed rule r now base hp with ⟨d, hd⟩ | herr
        · have hN : NextDate now date rule = .ok (FormatDate d) := by
            simp only [NextDate, hv, he, if_false, hb, hp, hd]
          refine ⟨⟨fun ⟨e, h⟩ => ?_, fun h => ?_⟩, Or.inr ⟨r, base, d, rfl, hb, hd, hN, FormatDate_roundtrip d⟩⟩
          · rw [hN] at h; exact absurd h (by simp)
          · rcases h with h | h | ⟨e, h⟩ | ⟨r2, base2, h1, h2, h3⟩
            · exact absurd hvalid h
            · exact absurd h he
            · exact absurd h (by simp)
            · simp only [Except.ok.injEq] at h1
              rw [hb] at h2
              simp only [Except.ok.injEq] at h2
              subst h1 h2
              rw [hd] at h3
              exact absurd h3 (by simp)
        · have hN : NextDate now date rule = .error .noMatchingDate := by
            simp only [NextDate, hv, he, if_false, hb, hp, herr]
          exact ⟨⟨fun _ => Or.inr (Or.inr (Or.inr ⟨r, base, rfl, hb, herr⟩)), fun _ => ⟨_, hN⟩⟩,
            Or.inl ⟨_, hN⟩⟩
  · have hinv : ¬ IsCalendarDateString date := fun h => hv ((ValidateDate_iff date).2 h)
    have hN : ∃ e, NextDate now date rule = .error e := by
      cases hc : ValidateDate date with
      | error e => exact ⟨e, by simp only [NextDate, hc]⟩
      | ok u => exact absurd hc hv
    exact ⟨⟨fun _ => Or.inl hinv, fun _ => hN⟩, Or.inl hN⟩

/-- Examples for C10: inputs for the failure conditions on the date and the rule, and one success. -/
theorem nextDate_failure_iff_witness :
    NextDate (Date 2024 1 1) "20240230" "d 7" = .error .dateFormat ∧
    NextDate (Date 2024 1 1) "2024011" "d 7" = .error .dateLength ∧
    NextDate (Date 2024 1 1) "20240101" "" = .error .emptyRepeat ∧
    NextDate (Date 2024 1 1) "20240101" "d 401" = .error .dayRange ∧
    NextDate (Date 2024 1 1) "20240101" "w 1,3,5" = .ok "20240103" ∧
    ((∃ e, NextDate (Date 2024 1 1) "20240101" "w 1,3,5" = .error e) ∨
      ∃ r base d, ParseRepeatRule "w 1,3,5" = .ok r ∧ ParseDate "20240101" = .ok base ∧
        calculateNextDate r (Date 2024 1 1) base = .ok d ∧
        NextDate (Date 2024 1 1) "20240101" "w 1,3,5" = .ok (FormatDate d) ∧
        (0 ≤ Year d → Year d ≤ 9999 →
          IsCalendarDateString (FormatDate d) ∧ ParseDate (FormatDate d) = .ok d)) :=
  ⟨rfl, rfl, rfl, rfl, rfl, (nextDate_failure_iff (Date 2024 1 1) "20240101" "w 1,3,5").2⟩
/-! ## Weekly search exhaustion (C11) -/

/-- An `Except` value whose `toOption` is `some c` is `.ok c`. -/
theorem ok_of_toOption {ε α : Type} {x : Except ε α} {c : α} (h : x.toOption = some c) :
    x = .ok c := by
  cases x with
  | error e => simp [Except.toOption] at h
  | ok v =>
    simp only [Except.toOption, Option.some.injEq] at h
    rw [h]

/-- The loop of `calculateWeekRule` that finds no match among its eight scanned days ends on
the ninth day, which `calculateWeekRule` returns with a nil error. -/
theorem calculateWeekRule_exhausted (r : RepeatRule) (now base : Int)
    (h : ∀ i : Nat, i < 8 →
      ¬ (isoWeekday ((if Before base now = true then now else base) + i) ∈ r.DaysWeek ∧
        now < (if Before base now = true then now else base) + i)) :
    calculateWeekRule r now base = .ok ((if Before base now = true then now else base) + 8) := by
  have := weekLoop_exhausted r now 8 _ h
  simp only [calculateWeekRule, daysInWeek]
  exact congrArg _ this

/-- For a non-empty weekday list within `1..7` the search of `calculateWeekRule` is never
exhausted: one of its eight scanned days matches, and the first of them is returned. -/
theorem calculateWeekRule_first (r : RepeatRule) (now base : Int) (hne : r.DaysWeek ≠ [])
    (hr : ∀ x ∈ r.DaysWeek, 1 ≤ x ∧ x ≤ 7) :
    ∃ j : Nat, j < 8 ∧
      (isoWeekday ((if Before base now = true then now else base) + j) ∈ r.DaysWeek ∧
        now < (if Before base now = true then now else base) + j) ∧
      (∀ i : Nat, i < j →
        ¬ (isoWeekday ((if Before base now = true then now else base) + i) ∈ r.DaysWeek ∧
          now < (if Before base now = true then now else base) + i)) ∧
      calculateWeekRule r now base =
        .ok ((if Before base now = true then now else base) + j) := by
  generalize hc : (if Before base now = true then now else base) = cursor
  have hcn : now ≤ cursor := by
    rw [← hc]; simp only [Before, decide_eq_true_eq]; split <;> omega
  obtain ⟨w, hwm⟩ := List.exists_mem_of_ne_nil _ hne
  obtain ⟨j0, hj1, hj7, hj⟩ := isoWeekday_hit cursor w (hr w hwm).1 (hr w hwm).2
  have hex : ∃ j : Nat, j < 8 ∧ (isoWeekday (cursor + j) ∈ r.DaysWeek ∧ now < cursor + j) :=
    ⟨j0, by omega, by rw [hj]; exact hwm, by omega⟩
  classical
  have hfind := Nat.find_spec hex
  have hmin : ∀ i : Nat, i < Nat.find hex →
      ¬ (isoWeekday (cursor + i) ∈ r.DaysWeek ∧ now < cursor + i) := by
    intro i hi hP
    exact Nat.find_min hex hi ⟨by omega, hP⟩
  generalize Nat.find hex = j at hfind hmin
  have hres := weekLoop_found r now 8 cursor j hfind.1 hfind.2 hmin
  refine ⟨j, hfind.1, hfind.2, hmin, ?_⟩
  simp only [calculateWeekRule, hc, daysInWeek]
  exact congrArg _ hres

/-- Counterexample to C11: the weekly rule value with an empty weekday list and
`base = now = 20240101`. None of the eight scanned dates, 20240101 through 20240108, has a
weekday in the list, and `calculateWeekRule` returns the date 20240109 with a nil error: no
error is returned, so the claim, which ranges over every rule value, fails here. -/
theorem weekly_exhaustion_counterexample :
    (∀ i : Nat, i < 8 →
      ¬ (isoDayOfWeek
            ((if Date 2024 1 1 ≤ Date 2024 1 1 then Date 2024 1 1 else Date 2024 1 1) + i) ∈
          ({ newRule ['w'] with DaysWeek := [] } : RepeatRule).DaysWeek ∧
        Date 2024 1 1 <
          (if Date 2024 1 1 ≤ Date 2024 1 1 then Date 2024 1 1 else Date 2024 1 1) + i)) ∧
    calculateWeekRule { newRule ['w'] with DaysWeek := [] } (Date 2024 1 1) (Date 2024 1 1) =
      .ok (Date 2024 1 9) ∧
    (¬ ∃ e : Err,
      calculateWeekRule { newRule ['w'] with DaysWeek := [] } (Date 2024 1 1) (Date 2024 1 1) =
        .error e) ∧
    ¬ (∀ (r : RepeatRule) (base now : Int),
        (∀ i : Nat, i < 8 →
          ¬ (isoDayOfWeek ((if now ≤ base then base else now) + i) ∈ r.DaysWeek ∧
            now < (if now ≤ base then base else now) + i)) →
        ∃ e : Err, calculateWeekRule r now base = .error e) := by
  have h0 : ∀ i : Nat, i < 8 →
      ¬ (isoDayOfWeek
            ((if Date 2024 1 1 ≤ Date 2024 1 1 then Date 2024 1 1 else Date 2024 1 1) + i) ∈
          ({ newRule ['w'] with DaysWeek := [] } : RepeatRule).DaysWeek ∧
        Date 2024 1 1 <
          (if Date 2024 1 1 ≤ Date 2024 1 1 then Date 2024 1 1 else Date 2024 1 1) + i) :=
    fun _ _ h => List.not_mem_nil _ h.1
  have h1 : calculateWeekRule { newRule ['w'] with DaysWeek := [] } (Date 2024 1 1)
      (Date 2024 1 1) = .ok (Date 2024 1 9) := ok_of_toOption (by decide!)
  refine ⟨h0, h1, ?_, ?_⟩
  · rintro ⟨e, he⟩
    rw [h1] at he
    exact Except.noConfusion he
  · intro hall
    obtain ⟨e, he⟩ := hall _ _ _ h0
    rw [h1] at he
    exact Except.noConfusion he

/-- C11 as amended (weekly search exhaustion is not an error): `calculateWeekRule` has no
error result. For every rule value and all dates `base`, `now` it returns a date; if none of
the eight scanned dates (cursor through cursor + 7 days) has a weekday in the list of the
rule and is strictly after `now`, it returns the date cursor + 8 days with a nil error. For a
rule parsed by `ParseRepeatRule` from a `w <list>` string the search is never exhausted: one
of the eight scanned dates matches, and the date returned is such a date. -/
theorem weekly_exhaustion_no_error (r : RepeatRule) (base now : Int) :
    (∃ d : Int, calculateWeekRule r now base = .ok d) ∧
    ((∀ i : Nat, i < 8 →
        ¬ (isoDayOfWeek ((if now ≤ base then base else now) + i) ∈ r.DaysWeek ∧
          now < (if now ≤ base then base else now) + i)) →
      calculateWeekRule r now base = .ok ((if now ≤ base then base else now) + 8)) ∧
    (∀ s : String, ParseRepeatRule s = .ok r → r.Type_ = "w" →
      ∃ j : Nat, j < 8 ∧
        isoDayOfWeek ((if now ≤ base then base else now) + j) ∈ r.DaysWeek ∧
        now < (if now ≤ base then base else now) + j ∧
        calculateWeekRule r now base = .ok ((if now ≤ base then base else now) + j)) := by
  have hcur : (if Before base now = true then now else base) =
      (if now ≤ base then base else now) := by
    simp only [Before, decide_eq_true_eq]
    by_cases c : base < now
    · rw [if_pos c, if_neg (by omega)]
    · rw [if_neg c, if_pos (by omega)]
  refine ⟨⟨_, rfl⟩, ?_, ?_⟩
  · intro h
    rw [← hcur]
    apply calculateWeekRule_exhausted
    intro i hi
    rw [hcur, isoWeekday_eq, ← isoDayOfWeek]
    exact h i hi
  · intro s hp hw
    obtain ⟨hne, hr⟩ := parsed_week_days s r hp hw
    obtain ⟨j, hj, hm, _, hres⟩ := calculateWeekRule_first r now base hne hr
    rw [hcur] at hm hres
    rw [isoWeekday_eq, ← isoDayOfWeek] at hm
    exact ⟨j, hj, hm.1, hm.2, hres⟩

/-- Witness for C11 as amended: the rule value with an empty weekday list and
`base = now = 20240101` has no match among its eight scanned dates and yields cursor + 8
days; the rule parsed from `w 1,3,5` with the same dates has a match among them. -/
theorem weekly_exhaustion_no_error_witness :
    (∀ i : Nat, i < 8 →
      ¬ (isoDayOfWeek
            ((if Date 2024 1 1 ≤ Date 2024 1 1 then Date 2024 1 1 else Date 2024 1 1) + i) ∈
          ({ newRule ['w'] with DaysWeek := [] } : RepeatRule).DaysWeek ∧
        Date 2024 1 1 <
          (if Date 2024 1 1 ≤ Date 2024 1 1 then Date 2024 1 1 else Date 2024 1 1) + i)) ∧
    calculateWeekRule { newRule ['w'] with DaysWeek := [] } (Date 2024 1 1) (Date 2024 1 1) =
      .ok ((if Date 2024 1 1 ≤ Date 2024 1 1 then Date 2024 1 1 else Date 2024 1 1) + 8) ∧
    ParseRepeatRule "w 1,3,5" = .ok { newRule ['w'] with DaysWeek := [1, 3, 5] } ∧
    ({ newRule ['w'] with DaysWeek := [1, 3, 5] } : RepeatRule).Type_ = "w" ∧
    ∃ j : Nat, j < 8 ∧
      isoDayOfWeek
          ((if Date 2024 1 1 ≤ Date 2024 1 1 then Date 2024 1 1 else Date 2024 1 1) + j) ∈
        ({ newRule ['w'] with DaysWeek := [1, 3, 5] } : RepeatRule).DaysWeek ∧
      Date 2024 1 1 <
        (if Date 2024 1 1 ≤ Date 2024 1 1 then Date 2024 1 1 else Date 2024 1 1) + j ∧
      calculateWeekRule { newRule ['w'] with DaysWeek := [1, 3, 5] } (Date 2024 1 1)
          (Date 2024 1 1) =
        .ok ((if Date 2024 1 1 ≤ Date 2024 1 1 then Date 2024 1 1 else Date 2024 1 1) + j) :=
  ⟨fun _ _ h => List.not_mem_nil _ h.1,
    (weekly_exhaustion_no_error { newRule ['w'] with DaysWeek := [] } (Date 2024 1 1)
      (Date 2024 1 1)).2.1 (fun _ _ h => List.not_mem_nil _ h.1),
    rfl, rfl,
    (weekly_exhaustion_no_error { newRule ['w'] with DaysWeek := [1, 3, 5] } (Date 2024 1 1)
      (Date 2024 1 1)).2.2 "w 1,3,5" rfl rfl⟩
/-! ## The bound of the monthly search (C12) -/

/-- C12 (monthly two-year bound), evaluated where it fails: for the rule `m 29 2` with
`base = now = 20210301` the loop skips every excluded month in one iteration and returns
20240229, the earliest matching date, which lies 1095 days after the starting cursor: more
than `24 * 31 = 744` days, and no error. -/
theorem monthly_bound_exceeded :
    calculateMonthRule { newRule ['m'] with MonthDays := [29], Months := [2] }
      (Date 2021 3 1) (Date 2021 3 1) = .ok (Date 2024 2 29) ∧
    Date 2024 2 29 - Date 2021 3 1 = 1095 ∧
    (∀ d2 : Int, MonthlyMatch { newRule ['m'] with MonthDays := [29], Months := [2] }
      (Date 2021 3 1) (Date 2021 3 1) d2 → Date 2024 2 29 ≤ d2) ∧
    ParseRepeatRule "m 29 2" = .ok { newRule ['m'] with MonthDays := [29], Months := [2] } ∧
    NextDate (Date 2021 3 1) "20210301" "m 29 2" = .ok "20240229" := by
  have h : calculateMonthRule { newRule ['m'] with MonthDays := [29], Months := [2] }
      (Date 2021 3 1) (Date 2021 3 1) = .ok (Date 2024 2 29) := ok_of_toOption (by decide!)
  refine ⟨h, by decide, ?_, by rfl, by rfl⟩
  have hl : monthLoop { newRule ['m'] with MonthDays := [29], Months := [2] } (Date 2021 3 1)
      (24 * 31) (Date 2021 3 1) = .ok (Date 2024 2 29) := h
  exact (monthLoop_spec _ _ (Date 2021 3 1) _ _ _ hl (le_refl _) (fun d2 hm => hm.2.1)).2
/-! ## The monthly search for a leap February (C13) -/

/-- The same month and day in a later year is a later date. -/
theorem Date_year_mono_aux (y m d : Int) (h1 : 1 ≤ m) (h12 : m ≤ 12) (n : Nat) :
    Date y m d + 365 * n ≤ Date (y + n) m d := by
  induction n with
  | zero => simp
  | succ n ih =>
    have := (Date_year_succ (y + n) m d h1 h12).1
    push_cast
    rw [← add_assoc]
    omega

/-- The same month and day in a later year is a later date. -/
theorem Date_year_mono (y y2 m d : Int) (h1 : 1 ≤ m) (h12 : m ≤ 12) (h : y ≤ y2) :
    Date y m d ≤ Date y2 m d := by
  have := Date_year_mono_aux y m d h1 h12 (y2 - y).toNat
  have e : y + ((y2 - y).toNat : Int) = y2 := by omega
  rw [e] at this
  omega

/-- Twelve months are at most 366 days. -/
theorem monthStart_add_12 (k : Int) : monthStart (k + 12) ≤ monthStart k + 366 := by
  have e1 : (k + 12) / 12 = k / 12 + 1 := by omega
  have e2 : (k + 12) % 12 = k % 12 := by omega
  have a : monthStart k = Date (k / 12) (k % 12 + 1) 1 := by
    rw [monthStart, Date_month_carry]; simp
  have b : monthStart (k + 12) = Date (k / 12 + 1) (k % 12 + 1) 1 := by
    rw [monthStart, Date_month_carry, e1, e2]; simp
  have := (Date_year_succ (k / 12) (k % 12 + 1) 1 (by omega) (by omega)).2
  omega

/-- Twenty-four months are at most 732 days. -/
theorem monthStart_add_24 (k : Int) : monthStart (k + 24) ≤ monthStart k + 732 := by
  have h1 := monthStart_add_12 k
  have h2 := monthStart_add_12 (k + 12)
  have e : k + 12 + 12 = k + 24 := by ring
  rw [e] at h2
  omega

/-- Progress of the loop of `calculateMonthRule`: every iteration either returns or moves
`next` forward by at least a day without leaving the months up to `K`; so if the month `K`
has a candidate `c` and the fuel exceeds the days up to the first of `K`, a date is
returned. -/
theorem monthLoop_finds (r : RepeatRule) (now K c : Int) (hnow : now < c)
    (hK : monthIndex c = K) (hmonth : r.Months = [] ∨ Month c ∈ r.Months)
    (hday : ∃ v ∈ r.MonthDays, 1 ≤ resolveDay (daysIn (Month c) (Year c)) v ∧
      resolveDay (daysIn (Month c) (Year c)) v ≤ daysIn (Month c) (Year c) ∧
      Day c = resolveDay (daysIn (Month c) (Year c)) v) :
    ∀ (n : Nat) (next : Int), monthIndex next ≤ K → monthStart K - next < n → 0 < n →
      ∃ d, monthLoop r now n next = .ok d := by
  intro n
  induction n with
  | zero => intro next _ _ h0; omega
  | succ n ih =>
    intro next hle hfuel _
    have hspan := month_span next
    unfold monthLoop
    simp only [lastDay_eq, next_month_first, AddDate_days]
    by_cases cskip : r.Months.length > 0 ∧ ¬ Month next ∈ r.Months
    · rw [if_pos cskip]
      have hne : monthIndex next ≠ K := by
        intro e
        obtain ⟨_, em⟩ := (monthIndex_eq_iff _ _).1 (e.trans hK.symm)
        rcases hmonth with hnil | hmem
        · rw [hnil] at cskip; simp at cskip
        · rw [← em] at hmem; exact cskip.2 hmem
      have hlt : monthIndex next + 1 ≤ K := by omega
      have hms := monthStart_le hlt
      exact ih _ (by rw [monthIndex_monthStart]; exact hlt) (by omega) (by omega)
    · rw [if_neg cskip]
      by_cases c2 : (monthCandidates r now next (daysIn (Month next) (Year next))).length > 0
      · rw [if_pos c2]
        exact ⟨_, rfl⟩
      · rw [if_neg c2]
        have hnil : monthCandidates r now next (daysIn (Month next) (Year next)) = [] := by
          apply List.eq_nil_of_length_eq_zero; omega
        have hne : monthIndex next ≠ K := by
          intro e
          have := (monthCandidates_iff r now next c).2 ⟨hnow, hK.trans e.symm, hday⟩
          rw [hnil] at this
          simp at this
        have hlt : monthIndex next + 1 ≤ K := by omega
        have hms := monthStart_le hlt
        have hsucc := monthIndex_succ_le next
        exact ih _ (by omega) (by omega) (by omega)
/-- The dates the rule `m 29,30,31 2` selects are February 29ths. -/
theorem leapFebruary_match (now cursor d : Int)
    (h : MonthlyMatch { newRule ['m'] with MonthDays := [29, 30, 31], Months := [2] }
      now cursor d) : Month d = 2 ∧ Day d = 29 := by
  obtain ⟨_, _, hm, v, hv, _, h2, h3⟩ := h
  have hm2 : Month d = 2 := by
    rcases hm with hnil | hmem
    · exact absurd hnil (by simp)
    · simpa using hmem
  refine ⟨hm2, ?_⟩
  rw [hm2, daysIn_feb] at h2 h3
  have hv2 : v = 29 ∨ v = 30 ∨ v = 31 := by simpa using hv
  simp only [resolveDay] at h2 h3
  rcases hv2 with rfl | rfl | rfl <;> norm_num at h2 h3 <;> split at h2 <;> omega

/-- A February 29 after `now` is selected by the rule `m 29,30,31 2`. -/
theorem leapFebruary_is_match (now cursor F : Int) (hF : now < F) (hc : cursor ≤ F)
    (hm : Month F = 2) (hd : Day F = 29) :
    MonthlyMatch { newRule ['m'] with MonthDays := [29, 30, 31], Months := [2] }
      now cursor F := by
  have hl := Day_le_daysIn F
  rw [hd] at hl
  refine ⟨hF, monthIndex_mono hc, Or.inr (by rw [hm]; simp), 29, by simp, ?_, ?_, ?_⟩
  · simp [resolveDay]
  · simpa [resolveDay] using hl
  · simp [resolveDay, hd]

/-- C13 (monthly leap-February search): for the rule `m 29,30,31 2` and dates
`base ≤ now`, if `F` is the first February 29 strictly after `now` and its month is at most
24 months after the month of `now`, then `calculateMonthRule` returns `F`, and `NextDate`
returns `F` in the `YYYYMMDD` layout instead of an error. -/
theorem monthly_leap_february (now base F : Int) (date : String)
    (hdate : IsCalendarDateString date) (hbase : ParseDate date = .ok base)
    (hle : base ≤ now) (hF : now < F) (hm : Month F = 2) (hd : Day F = 29)
    (hfirst : ∀ d : Int, now < d → Month d = 2 → Day d = 29 → F ≤ d)
    (hwin : monthIndex F ≤ monthIndex now + 24) :
    calculateMonthRule { newRule ['m'] with MonthDays := [29, 30, 31], Months := [2] }
        now base = .ok F ∧
      NextDate now date "m 29,30,31 2" = .ok (FormatDate F) := by
  have hcur : (if Before base now = true then now else base) = now := by
    simp only [Before, decide_eq_true_eq]
    by_cases c : base < now
    · rw [if_pos c]
    · rw [if_neg c]; omega
  have hmatch := leapFebruary_is_match now now F hF (le_of_lt hF) hm hd
  have hspan := month_span now
  have h24 := monthStart_add_24 (monthIndex now)
  have hK := monthStart_le hwin
  obtain ⟨d, hd2⟩ := monthLoop_finds
    { newRule ['m'] with MonthDays := [29, 30, 31], Months := [2] } now (monthIndex F) F hF rfl
    hmatch.2.2.1 hmatch.2.2.2 (24 * 31) now (monthIndex_mono (le_of_lt hF)) (by omega)
    (by norm_num)
  obtain ⟨hdm, hmin⟩ := monthLoop_spec _ now now _ _ d hd2 (le_refl _) (fun d2 h => h.2.1)
  obtain ⟨dm, dd⟩ := leapFebruary_match now now d hdm
  have hdF : d = F := le_antisymm (hmin F hmatch) (hfirst d hdm.1 dm dd)
  have hcalc : calculateMonthRule
      { newRule ['m'] with MonthDays := [29, 30, 31], Months := [2] } now base = .ok F := by
    simp only [calculateMonthRule, hcur]
    rw [hd2, hdF]
  refine ⟨hcalc, ?_⟩
  have hv := (ValidateDate_iff date).2 hdate
  have hp : ParseRepeatRule "m 29,30,31 2" =
      .ok { newRule ['m'] with MonthDays := [29, 30, 31], Months := [2] } := by rfl
  have hne : ¬ ("m 29,30,31 2" : String) = "" := by decide
  have hnext : calculateNextDate
      { newRule ['m'] with MonthDays := [29, 30, 31], Months := [2] } now base = .ok F := by
    rw [← hcalc]
    simp only [calculateNextDate]
    rw [if_neg (by decide), if_neg (by decide), if_neg (by decide), if_pos (by decide)]
  simp only [NextDate, hv, if_neg hne, hbase, hp, hnext]
/-- When February 29 of the year before `Y` (or the March 1 it is normalised to) is not
after `now`, no February 29 after `now` comes before the one of year `Y`. -/
theorem feb29_first (Y now : Int) (hprev : Date (Y - 1) 2 29 ≤ now) :
    ∀ d : Int, now < d → Month d = 2 → Day d = 29 → Date Y 2 29 ≤ d := by
  intro d hd hm hday
  have hb := Date_absDate d
  rw [hm, hday] at hb
  by_contra hlt
  have hy : Year d ≤ Y - 1 := by
    by_contra hc
    have := Date_year_mono Y (Year d) 2 29 (by norm_num) (by norm_num) (by omega)
    omega
  have := Date_year_mono (Year d) (Y - 1) 2 29 (by norm_num) (by norm_num) hy
  omega

/-- Witness for C13: `now = 20230301` with `date = 20230101` gives 20240229. -/
theorem monthly_leap_february_witness :
    calculateMonthRule { newRule ['m'] with MonthDays := [29, 30, 31], Months := [2] }
        (Date 2023 3 1) (Date 2023 1 1) = .ok (Date 2024 2 29) ∧
      NextDate (Date 2023 3 1) "20230101" "m 29,30,31 2" = .ok (FormatDate (Date 2024 2 29)) ∧
      FormatDate (Date 2024 2 29) = "20240229" :=
  ⟨(monthly_leap_february (Date 2023 3 1) (Date 2023 1 1) (Date 2024 2 29) "20230101"
      ((ValidateDate_iff "20230101").1 (by rfl)) (by rfl) (by decide) (by decide) (by decide)
      (by decide) (feb29_first 2024 (Date 2023 3 1) (by decide)) (by decide)).1,
    (monthly_leap_february (Date 2023 3 1) (Date 2023 1 1) (Date 2024 2 29) "20230101"
      ((ValidateDate_iff "20230101").1 (by rfl)) (by rfl) (by decide) (by decide) (by decide)
      (by decide) (feb29_first 2024 (Date 2023 3 1) (by decide)) (by decide)).2,
    by decide⟩
/-! ## Month and day of the yearly result (C14) -/

/-- Counterexample to C14: with `base = 20240229` and `now = 20280101` the yearly result is
20280301, in the leap year 2028, and not February 29 of that year: after the first step
to March 1 the loop keeps adding years to March 1. -/
theorem yearly_leap_base_counterexample :
    calculateYearRule (newRule ['y']) (Date 2028 1 1) (Date 2024 2 29) = .ok (Date 2028 3 1) ∧
    Month (Date 2024 2 29) = 2 ∧ Day (Date 2024 2 29) = 29 ∧
    isLeap (Year (Date 2028 3 1)) = true ∧
    Month (Date 2028 3 1) = 3 ∧ Day (Date 2028 3 1) = 1 ∧
    ¬ (∀ (r : RepeatRule) (base now d : Int), calculateYearRule r now base = .ok d →
        if Month base = 2 ∧ Day base = 29 ∧ isLeap (Year d) = false
        then Month d = 3 ∧ Day d = 1
        else Month d = Month base ∧ Day d = Day base) := by
  have h : calculateYearRule (newRule ['y']) (Date 2028 1 1) (Date 2024 2 29) =
      .ok (Date 2028 3 1) := ok_of_toOption (by decide!)
  refine ⟨h, by decide, by decide, by decide, by decide, by decide, fun hall => ?_⟩
  have := hall _ _ _ _ h
  rw [if_neg (by decide)] at this
  exact absurd this.1 (by decide)

/-- C14 as amended (yearly keeps the month and day): for all dates `base`, `now` the yearly
result is a date after `now` on the same month and day as `base`, except when `base` is a
February 29: then the result is March 1 of its year, whether or not that year is a leap
year. -/
theorem yearly_month_day (r : RepeatRule) (base now : Int) :
    ∃ d : Int, calculateYearRule r now base = .ok d ∧ now < d ∧
      if Month base = 2 ∧ Day base = 29 then Month d = 3 ∧ Day d = 1
      else Month d = Month base ∧ Day d = Day base := by
  obtain ⟨h1, h12, hd1, _⟩ := absDate_spec base
  have hd := Day_le_daysIn base
  have hb := Date_absDate base
  by_cases c : Month base = 2 ∧ Day base = 29
  · simp only [if_pos c]
    have hleap : isLeap (Year base) = true := by
      by_contra hl
      rw [c.1, daysIn_feb, if_neg hl] at hd
      omega
    obtain ⟨ha, hs, fy, fm, fd, hlt⟩ := leapDay_next (Year base) hleap
    rw [c.1, c.2] at hb
    rw [hb] at ha hs hlt
    by_cases cn : now ≤ base
    · have hc : After base now = true ∨ Equal base now = true := by
        simp only [After, Equal, decide_eq_true_eq]; omega
      exact ⟨Date (Year base + 1) 3 1, by simp only [calculateYearRule, if_pos hc, ha],
        by omega, fm, fd⟩
    · have hc : ¬ (After base now = true ∨ Equal base now = true) := by
        simp only [After, Equal, decide_eq_true_eq]; omega
      have hA : After base now = false := by
        simp only [After, decide_eq_false_iff_not]; omega
      have hb31 := daysIn_bounds (Year base + 1) 3 (by norm_num) (by norm_num)
      obtain ⟨k, _, hl, hk2, _⟩ := yearLoop_fixed now (Year base + 1) 3 1 (by norm_num)
        (by norm_num) (by norm_num) (by omega) (by norm_num) (now - base).toNat 0
        (by simp only [Nat.cast_zero, add_zero]; omega)
      simp only [Nat.cast_zero, add_zero] at hl
      have hb31k := daysIn_bounds (Year base + 1 + k) 3 (by norm_num) (by norm_num)
      obtain ⟨_, gm, gd⟩ := absDate_Date (Year base + 1 + k) 3 1 (by norm_num) (by norm_num)
        (by norm_num) (by omega)
      have hstep : yearLoop now ((now - base).toNat + 1) base =
          yearLoop now (now - base).toNat (yearStep base) := by
        simp only [yearLoop, hA, Bool.false_eq_true, if_false]
      refine ⟨Date (Year base + 1 + k) 3 1, ?_, hk2, gm, gd⟩
      simp only [calculateYearRule, if_neg hc, hstep, hs, hl]
  · simp only [if_neg c]
    have hvalid : ∀ k : Nat,
        Month (Date (Year base + k) (Month base) (Day base)) = Month base ∧
        Day (Date (Year base + k) (Month base) (Day base)) = Day base := fun k =>
      (absDate_Date _ _ _ h1 h12 hd1 (fixedDay_valid _ _ _ _ hd c)).2
    by_cases cn : now ≤ base
    · have hs := (yearStep_fixed (Year base) (Month base) (Day base) h1 h12 hd1 hd c).2
      have hy := (Date_year_succ (Year base) (Month base) (Day base) h1 h12).1
      rw [hb] at hs hy
      have hc : After base now = true ∨ Equal base now = true := by
        simp only [After, Equal, decide_eq_true_eq]; omega
      have hv := hvalid 1
      simp only [Nat.cast_one] at hv
      exact ⟨Date (Year base + 1) (Month base) (Day base),
        by simp only [calculateYearRule, if_pos hc, hs], by omega, hv.1, hv.2⟩
    · obtain ⟨k, _, hl, hk2, _⟩ := yearLoop_fixed now (Year base) (Month base) (Day base)
        h1 h12 hd1 hd c ((now - base).toNat + 1) 0
        (by simp only [Nat.cast_zero, add_zero, hb]; omega)
      simp only [Nat.cast_zero, add_zero, hb] at hl
      have hc : ¬ (After base now = true ∨ Equal base now = true) := by
        simp only [After, Equal, decide_eq_true_eq]; omega
      exact ⟨Date (Year base + k) (Month base) (Day base),
        by simp only [calculateYearRule, if_neg hc, hl], hk2, (hvalid k).1, (hvalid k).2⟩
/-! ## Marking a task done (C15) -/

/-- What a successful `NextDate` went through. -/
theorem NextDate_ok (now : Int) (date rule out : String) (h : NextDate now date rule = .ok out) :
    ∃ base r d, ParseDate date = .ok base ∧ ParseRepeatRule rule = .ok r ∧
      calculateNextDate r now base = .ok d ∧ out = FormatDate d := by
  unfold NextDate at h
  split at h
  · exact absurd h (by simp)
  · split at h
    · exact absurd h (by simp)
    · split at h
      · exact absurd h (by simp)
      · rename_i base hb
        split at h
        · exact absurd h (by simp)
        · rename_i r hr
          split at h
          · exact absurd h (by simp)
          · rename_i d hd
            simp only [Except.ok.injEq] at h
            exact ⟨base, r, d, hb, hr, hd, h.symm⟩

/-- With a positive interval the date of `calculateDayRule` is after `base`. -/
theorem calculateDayRule_gt (r : RepeatRule) (now base d : Int) (hN : 1 ≤ r.Days)
    (h : calculateDayRule r now base = .ok d) : base < d := by
  by_cases c : base < now
  · obtain ⟨k, e, h1, _⟩ := dayLoop_spec r.Days now hN (now - base).toNat base (by omega)
    simp only [calculateDayRule, Before, c, decide_True, if_true, e, Except.ok.injEq] at h
    omega
  · simp only [calculateDayRule, Before, c, decide_False, Bool.false_eq_true, if_false,
      AddDate_days, Except.ok.injEq] at h
    omega

/-- Adding a year moves an instant forward. -/
theorem AddDate_year_gt (t : Int) : t < AddDate t 1 0 0 := by
  obtain ⟨h1, h12, hd1, _⟩ := absDate_spec t
  have hd := Day_le_daysIn t
  have hb := Date_absDate t
  by_cases c : Month t = 2 ∧ Day t = 29
  · have hleap : isLeap (Year t) = true := by
      by_contra hl
      rw [c.1, daysIn_feb, if_neg hl] at hd
      omega
    obtain ⟨ha, _, _, _, _, hlt⟩ := leapDay_next (Year t) hleap
    rw [c.1, c.2] at hb
    rw [hb] at ha hlt
    omega
  · have hs := (yearStep_fixed (Year t) (Month t) (Day t) h1 h12 hd1 hd c).2
    have := (Date_year_succ (Year t) (Month t) (Day t) h1 h12).1
    rw [hb] at hs this
    omega

/-- A date returned by the loop of `calculateYearRule` is after `now`. -/
theorem yearLoop_gt (now : Int) : ∀ (fuel : Nat) (t d : Int),
    yearLoop now fuel t = some d → now < d := by
  intro fuel
  induction fuel with
  | zero =>
    intro t d h
    simp only [yearLoop, After] at h
    split at h
    · rename_i c
      simp only [Option.some.injEq] at h
      simp only [decide_eq_true_eq] at c
      omega
    · exact absurd h (by simp)
  | succ n ih =>
    intro t d h
    simp only [yearLoop, After] at h
    split at h
    · rename_i c
      simp only [Option.some.injEq] at h
      simp only [decide_eq_true_eq] at c
      omega
    · exact ih _ _ h

/-- The date of `calculateYearRule` is after `base` and after `now`. -/
theorem calculateYearRule_gt (r : RepeatRule) (now base d : Int)
    (h : calculateYearRule r now base = .ok d) : base < d ∧ now < d := by
  by_cases c : After base now = true ∨ Equal base now = true
  · simp only [calculateYearRule, if_pos c, Except.ok.injEq] at h
    have := AddDate_year_gt base
    simp only [After, Equal, decide_eq_true_eq] at c
    omega
  · simp only [calculateYearRule, if_neg c] at h
    simp only [After, Equal, decide_eq_true_eq] at c
    split at h
    · rename_i d2 hl
      simp only [Except.ok.injEq] at h
      have := yearLoop_gt now _ _ _ hl
      omega
    · exact absurd h (by simp)

/-- For a weekly rule with a non-empty weekday list within `1..7` the date of
`calculateWeekRule` is on or after `base` and after `now`. -/
theorem calculateWeekRule_ge (r : RepeatRule) (now base d : Int) (hne : r.DaysWeek ≠ [])
    (hr : ∀ x ∈ r.DaysWeek, 1 ≤ x ∧ x ≤ 7) (h : calculateWeekRule r now base = .ok d) :
    base ≤ d ∧ now < d := by
  generalize hc : (if Before base now = true then now else base) = cursor at h
  have hcn : now ≤ cursor ∧ base ≤ cursor := by
    rw [← hc]; simp only [Before, decide_eq_true_eq]; split <;> omega
  obtain ⟨w, hwm⟩ := List.exists_mem_of_ne_nil _ hne
  obtain ⟨j0, hj1, hj7, hj⟩ := isoWeekday_hit cursor w (hr w hwm).1 (hr w hwm).2
  have hex : ∃ j : Nat, j < 8 ∧ (isoWeekday (cursor + j) ∈ r.DaysWeek ∧ now < cursor + j) :=
    ⟨j0, by omega, by rw [hj]; exact hwm, by omega⟩
  classical
  have hfind := Nat.find_spec hex
  have hmin : ∀ i : Nat, i < Nat.find hex →
      ¬ (isoWeekday (cursor + i) ∈ r.DaysWeek ∧ now < cursor + i) := by
    intro i hi hP
    exact Nat.find_min hex hi ⟨by omega, hP⟩
  generalize Nat.find hex = j at hfind hmin
  have hres := weekLoop_found r now 8 cursor j hfind.1 hfind.2 hmin
  simp only [calculateWeekRule, hc, daysInWeek, Except.ok.injEq] at h
  have e : d = cursor + j := by rw [← h]; exact hres
  omega
/-- For a parsed rule the date of the calculator is after `base` for the `d` and `y`
families and whenever `base` is not after `now`; for the `w` family it is on or after `base`
and after `now`; for the `m` family it is after `now`. -/
theorem calculateNextDate_after (s : String) (r : RepeatRule) (now base d : Int)
    (hp : ParseRepeatRule s = .ok r) (h : calculateNextDate r now base = .ok d) :
    ((r.Type_ = "d" ∨ r.Type_ = "y" ∨ base ≤ now) → base < d) ∧
      (r.Type_ = "w" → base ≤ d ∧ now < d) ∧ (r.Type_ = "m" → now < d) := by
  obtain ⟨p0, rest, hf, ht, hc⟩ := ParseRepeatRule_ok s r hp
  rcases hc with ⟨hd, hpd⟩ | ⟨hy, _⟩ | ⟨hw, _⟩ | ⟨hm, _⟩
  · obtain ⟨_, _, N, _, _, h1, _, e⟩ := parseDayRule_ok _ _ _ hpd
    have hN : 1 ≤ r.Days := by rw [e]; exact h1
    simp only [calculateNextDate, if_pos hd] at h
    have := calculateDayRule_gt r now base d hN h
    exact ⟨fun _ => this, fun hw => (type_ne (by decide) hd hw).elim,
      fun hm => (type_ne (by decide) hd hm).elim⟩
  · have n1 : ¬ r.Type_ = "d" := fun h => type_ne (by decide) hy h
    simp only [calculateNextDate, if_neg n1, if_pos hy] at h
    have := calculateYearRule_gt r now base d h
    exact ⟨fun _ => this.1, fun hw => (type_ne (by decide) hy hw).elim,
      fun hm => (type_ne (by decide) hy hm).elim⟩
  · have n1 : ¬ r.Type_ = "d" := fun h => type_ne (by decide) hw h
    have n2 : ¬ r.Type_ = "y" := fun h => type_ne (by decide) hw h
    simp only [calculateNextDate, if_neg n1, if_neg n2, if_pos hw] at h
    obtain ⟨hne, hr⟩ := parsed_week_days s r hp hw
    have := calculateWeekRule_ge r now base d hne hr h
    refine ⟨fun hc => ?_, fun _ => this, fun hm => (type_ne (by decide) hw hm).elim⟩
    rcases hc with hc | hc | hc
    · exact (type_ne (by decide) hw hc).elim
    · exact (type_ne (by decide) hw hc).elim
    · omega
  · have n1 : ¬ r.Type_ = "d" := fun h => type_ne (by decide) hm h
    have n2 : ¬ r.Type_ = "y" := fun h => type_ne (by decide) hm h
    have n3 : ¬ r.Type_ = "w" := fun h => type_ne (by decide) hm h
    simp only [calculateNextDate, if_neg n1, if_neg n2, if_neg n3, if_pos hm] at h
    have hnow : now < d := by
      rw [calculateMonthRule] at h
      exact (monthLoop_spec r now _ _ _ d h (le_refl _) (fun d2 hm => hm.2.1)).1.1
    refine ⟨fun hc => ?_, fun hw => (type_ne (by decide) hm hw).elim, fun _ => hnow⟩
    rcases hc with hc | hc | hc
    · exact (type_ne (by decide) hm hc).elim
    · exact (type_ne (by decide) hm hc).elim
    · omega

/-- Counterexample to C15: marking done on 20240101 a weekly task `w 3` that is due on
Wednesday 20240103 leaves its date at 20240103, and for a monthly task `m 5` due on
20240120 `NextDate` returns the earlier date 20240105. -/
theorem markDone_not_advancing_counterexample :
    NextDate (Date 2024 1 1) "20240103" "w 3" = .ok "20240103" ∧
    NextDate (Date 2024 1 1) "20240120" "m 5" = .ok "20240105" ∧
    MarkTaskDone tableRepository
        [{ ID := 1, Date := "20240103", Title := "t", Comment := "", Repeat := "w 3" }] 1
        (Date 2024 1 1) =
      .ok [{ ID := 1, Date := "20240103", Title := "t", Comment := "", Repeat := "w 3" }] ∧
    ¬ (∀ (now base d : Int) (date rule out : String), ParseDate date = .ok base →
        NextDate now date rule = .ok out → ParseDate out = .ok d → base < d) := by
  have h1 : NextDate (Date 2024 1 1) "20240103" "w 3" = .ok "20240103" :=
    ok_of_toOption (by decide!)
  have h2 : NextDate (Date 2024 1 1) "20240120" "m 5" = .ok "20240105" :=
    ok_of_toOption (by decide!)
  refine ⟨h1, h2, ok_of_toOption (by decide!), fun hall => ?_⟩
  have hp : ParseDate "20240103" = .ok (Date 2024 1 3) := ok_of_toOption (by decide!)
  have := hall _ _ _ _ _ _ hp h1 hp
  omega
/-- C15 as amended (marking done and the due date): for a repeating task whose rule
`NextDate` accepts, `MarkTaskDone` stores the date `NextDate` returns, which is the date
`d` of the calculator in the `YYYYMMDD` layout; `d` is strictly later than the task's
date `base` for the `d` and `y` families, and for every family when `base` is not after
`now`; for a `w` rule it is on or after `base` and after `now`, for an `m` rule it is
after `now`. -/
theorem markDone_advances {σ : Type} (repository : Repository σ) (store : σ)
    (id now base : Int) (task : Task) (out : String)
    (hget : repository.GetTaskByID store id = .ok task) (hrep : task.Repeat ≠ "")
    (hbase : ParseDate task.Date = .ok base)
    (hnext : NextDate now task.Date task.Repeat = .ok out) :
    MarkTaskDone repository store id now =
        (match repository.UpdateTaskDate store id out with
          | .error msg => .error (.repository msg)
          | .ok store => .ok store) ∧
      ∃ r d, ParseRepeatRule task.Repeat = .ok r ∧ calculateNextDate r now base = .ok d ∧
        out = FormatDate d ∧
        ((r.Type_ = "d" ∨ r.Type_ = "y" ∨ base ≤ now) → base < d) ∧
        (r.Type_ = "w" → base ≤ d ∧ now < d) ∧ (r.Type_ = "m" → now < d) := by
  constructor
  · simp only [MarkTaskDone, hget, if_neg hrep, hnext]
  · obtain ⟨base2, r, d, hb, hr, hd, ho⟩ := NextDate_ok now task.Date task.Repeat out hnext
    rw [hbase] at hb
    simp only [Except.ok.injEq] at hb
    subst hb
    exact ⟨r, d, hr, hd, ho, calculateNextDate_after task.Repeat r now base d hr hd⟩

/-- Witness for C15 as amended: the task with date 20240101 and rule `d 7`, marked done on
20240115, gets the date 20240115. -/
theorem markDone_advances_witness :
    MarkTaskDone tableRepository
        [{ ID := 1, Date := "20240101", Title := "t", Comment := "", Repeat := "d 7" }] 1
        (Date 2024 1 15) =
      (match tableRepository.UpdateTaskDate
          [{ ID := 1, Date := "20240101", Title := "t", Comment := "", Repeat := "d 7" }] 1
          "20240115" with
        | .error msg => .error (.repository msg)
        | .ok store => .ok store) ∧
      ∃ r d, ParseRepeatRule "d 7" = .ok r ∧
        calculateNextDate r (Date 2024 1 15) (Date 2024 1 1) = .ok d ∧
        "20240115" = FormatDate d ∧
        ((r.Type_ = "d" ∨ r.Type_ = "y" ∨ Date 2024 1 1 ≤ Date 2024 1 15) → Date 2024 1 1 < d) ∧
        (r.Type_ = "w" → Date 2024 1 1 ≤ d ∧ Date 2024 1 15 < d) ∧
        (r.Type_ = "m" → Date 2024 1 15 < d) :=
  markDone_advances tableRepository
    [{ ID := 1, Date := "20240101", Title := "t", Comment := "", Repeat := "d 7" }]
    1 (Date 2024 1 15) (Date 2024 1 1)
    { ID := 1, Date := "20240101", Title := "t", Comment := "", Repeat := "d 7" } "20240115"
    (ok_of_toOption (by decide!)) (by decide) (ok_of_toOption (by decide!))
    (ok_of_toOption (by decide!))

end TaskTracker
